import Mathlib

/-!
# Verification of the page-loader core (`page_loader/loading_handler/html_parser.py`)

This file gives a shallow embedding of the resource discovery and rewriting
pipeline of the repository: the link classifier (`get_full_link`,
`is_local_link`), the resource namer (`create_resource_name`), the page
transformer (`search_resources`) and the resource fetcher (`save_resources`),
together with the parts of Python's `urllib.parse` (`urlparse`, `urljoin`,
CPython 3.10) that the code delegates to.

Python strings are modelled as `List Char`; the HTML parse tree (an external
collaborator, BeautifulSoup) is modelled as the document-ordered list of its
element nodes; `requests`/filesystem effects are modelled by explicit oracle
functions.  Python code that can raise (`KeyError` on a missing attribute,
`ValueError` inside `urlsplit`) is modelled with `Option`.
-/

set_option autoImplicit false

/-- Python strings, modelled as lists of characters. -/
abbrev Str := List Char

/-- Conversion from Lean string literals to the `Str` model. -/
def str (s : String) : Str := s.data

/-! ## CPython 3.10 `urllib.parse`, restricted to what the source uses -/

/-- `_UNSAFE_URL_BYTES_TO_REMOVE`: a char survives `urlsplit`'s initial
stripping iff it is none of tab, CR, LF. -/
def cleanChar (c : Char) : Bool := c != '\t' && c != '\r' && c != '\n'

/-- The stripping of `_UNSAFE_URL_BYTES_TO_REMOVE` performed at the start of
`urlsplit` (successive `url.replace(b, "")` for tab, CR, LF). -/
def sanitize (l : Str) : Str := l.filter cleanChar

/-- `scheme_chars` of `urllib.parse`: ASCII letters, digits and `+-.`. -/
def scheme_char (c : Char) : Bool :=
  c.isAlphanum || c == '+' || c == '-' || c == '.'

/-- ASCII lower-casing as applied by `str.lower` to scheme characters
(`urlsplit` only ever lower-cases strings of `scheme_chars`, which are
ASCII, where `str.lower` acts exactly on `A`-`Z`). -/
def lowerChar (c : Char) : Char :=
  if 'A' ≤ c && c ≤ 'Z' then Char.ofNat (c.toNat + 32) else c

/-- Split a list at the first occurrence of `c`:
`splitFirst c l = some (a, b)` iff `l = a ++ c :: b` with `c ∉ a`.
This is Python's `l.split(c, 1)` / `l.find(c)` combined. -/
def splitFirst (c : Char) : Str → Option (Str × Str)
  | [] => none
  | a :: rest =>
    if a = c then some ([], rest)
    else (splitFirst c rest).map (fun p => (a :: p.1, p.2))

/-- Split a list at the last occurrence of `c`:
`rsplitOn c l = some (a, b)` iff `l = a ++ c :: b` with `c ∉ b`.
This is Python's `l.rfind(c)`. -/
def rsplitOn (c : Char) : Str → Option (Str × Str)
  | [] => none
  | a :: rest =>
    match rsplitOn c rest with
    | some (x, y) => some (a :: x, y)
    | none => if a = c then some ([], rest) else none

/-- Python's `l.split(c)` (always at least one piece). -/
def splitOnChar (c : Char) : Str → List Str
  | [] => [[]]
  | a :: rest =>
    if a = c then [] :: splitOnChar c rest
    else
      match splitOnChar c rest with
      | [] => [[a]]
      | s :: ss => (a :: s) :: ss

/-- Python's `sep.join(pieces)` for a one-character separator. -/
def joinOn (c : Char) : List Str → Str
  | [] => []
  | [a] => a
  | a :: rest => a ++ c :: joinOn c rest

/-- Result of `urlsplit`: `(scheme, netloc, path, query, fragment)`. -/
structure SplitURL where
  scheme : Str
  netloc : Str
  path : Str
  query : Str
  fragment : Str
deriving Repr, DecidableEq

/-- Result of `urlparse`: `urlsplit` plus the `params` component. -/
structure ParseURL where
  scheme : Str
  netloc : Str
  path : Str
  params : Str
  query : Str
  fragment : Str
deriving Repr, DecidableEq

/-- The scheme-recognition step of `urlsplit`: if the part before the first
`:` is nonempty (`i > 0`) and made of `scheme_chars`, the lowered prefix is
the scheme and parsing continues after the colon; otherwise no scheme is
recognised. -/
def schemeSplit (url : Str) : Option Str × Str :=
  match splitFirst ':' url with
  | none => (none, url)
  | some (pre, rest) =>
    if pre ≠ [] ∧ pre.all scheme_char then (some (pre.map lowerChar), rest)
    else (none, url)

/-- A char at which `_splitnetloc` stops the netloc. -/
def netlocChar (c : Char) : Bool := c != '/' && c != '?' && c != '#'

/-- `_splitnetloc`: when `url[:2] == '//'`, the netloc runs to the next
`/`, `?` or `#`. -/
def netlocSplit (url : Str) : Str × Str :=
  if url.take 2 = str "//" then
    ((url.drop 2).takeWhile netlocChar, (url.drop 2).dropWhile netlocChar)
  else ([], url)

/-- `url.split('#', 1)` (returning `(url, '')` when there is no `#`). -/
def splitHash (url : Str) : Str × Str :=
  match splitFirst '#' url with
  | some (a, b) => (a, b)
  | none => (url, [])

/-- `url.split('?', 1)` (returning `(url, '')` when there is no `?`). -/
def splitQm (url : Str) : Str × Str :=
  match splitFirst '?' url with
  | some (a, b) => (a, b)
  | none => (url, [])

/-- The IPv6 sanity check of `urlsplit`: a netloc with `[` but no `]` (or
conversely) raises `ValueError`. -/
def bracketOk (n : Str) : Bool :=
  !((n.contains '[' && !n.contains ']') || (n.contains ']' && !n.contains '['))

/-- `urlsplit(url, scheme=d)` without the `ValueError` guard: strip unsafe
bytes, recognise a scheme (falling back to the stripped default `d`),
split off `//netloc`, then fragment, then query. -/
def urlsplitTotal (url d : Str) : SplitURL :=
  let u0 := sanitize url
  let sr := schemeSplit u0
  let scheme := match sr.1 with | some s => s | none => sanitize d
  let nr := netlocSplit sr.2
  let hf := splitHash nr.2
  let pq := splitQm hf.1
  ⟨scheme, nr.1, pq.1, pq.2, hf.2⟩

/-- `urlsplit(url, scheme=d)`; `none` models the `ValueError` raised on a
netloc with unbalanced square brackets.  (The `_checknetloc` NFKC check,
which can only fire on non-ASCII netlocs, is not modelled.) -/
def urlsplit (url d : Str) : Option SplitURL :=
  if bracketOk (urlsplitTotal url d).netloc = true then some (urlsplitTotal url d)
  else none

/-- `uses_params` of `urllib.parse` (CPython 3.10). -/
def uses_params : List Str :=
  [str "", str "ftp", str "hdl", str "prospero", str "http", str "imap",
   str "https", str "shttp", str "rtsp", str "rtspu", str "sip", str "sips",
   str "mms", str "sftp", str "tel"]

/-- `uses_relative` of `urllib.parse` (CPython 3.10). -/
def uses_relative : List Str :=
  [str "", str "ftp", str "http", str "gopher", str "nntp", str "imap",
   str "wais", str "file", str "https", str "shttp", str "mms",
   str "prospero", str "rtsp", str "rtspu", str "sftp", str "svn",
   str "svn+ssh", str "ws", str "wss"]

/-- `uses_netloc` of `urllib.parse` (CPython 3.10). -/
def uses_netloc : List Str :=
  [str "", str "ftp", str "http", str "gopher", str "nntp", str "telnet",
   str "imap", str "wais", str "file", str "mms", str "https", str "shttp",
   str "snews", str "prospero", str "rtsp", str "rtspu", str "rsync",
   str "svn", str "svn+ssh", str "sftp", str "nfs", str "git",
   str "git+ssh", str "ws", str "wss"]

/-- `_splitparams`: split `;params` off the last path segment (off the whole
path if it has no `/`).  Only called when `;` occurs in the path. -/
def splitparams (url : Str) : Str × Str :=
  match rsplitOn '/' url with
  | some (a, b) =>
    match splitFirst ';' b with
    | some (x, y) => (a ++ '/' :: x, y)
    | none => (url, [])
  | none =>
    match splitFirst ';' url with
    | some (x, y) => (x, y)
    | none => (url, [])

/-- `urlparse(url, scheme=d)`: `urlsplit` followed by the params split,
which happens only for schemes in `uses_params` and paths containing `;`. -/
def urlparse (url d : Str) : Option ParseURL :=
  match urlsplit url d with
  | none => none
  | some s =>
    match uses_params.contains s.scheme && s.path.contains ';' with
    | true =>
      some ⟨s.scheme, s.netloc, (splitparams s.path).1, (splitparams s.path).2,
            s.query, s.fragment⟩
    | false => some ⟨s.scheme, s.netloc, s.path, [], s.query, s.fragment⟩

/-- `urlunsplit`: reassemble `scheme://netloc/path?query#fragment`,
inserting `//` when there is a netloc (or the path starts with `//`) and
making the path absolute in that case. -/
def urlunsplit (scheme netloc path query fragment : Str) : Str :=
  let url := path
  let url :=
    if !netloc.isEmpty || url.take 2 = str "//" then
      let url2 := if !url.isEmpty && url.take 1 ≠ str "/" then '/' :: url else url
      '/' :: '/' :: (netloc ++ url2)
    else url
  let url := if !scheme.isEmpty then scheme ++ ':' :: url else url
  let url := if !query.isEmpty then url ++ '?' :: query else url
  if !fragment.isEmpty then url ++ '#' :: fragment else url

/-- `urlunparse`: reattach `;params` to the path, then `urlunsplit`. -/
def urlunparse (u : ParseURL) : Str :=
  let url := if !u.params.isEmpty then u.path ++ ';' :: u.params else u.path
  urlunsplit u.scheme u.netloc url u.query u.fragment

/-- `segments[1:-1] = filter(None, segments[1:-1])` of `urljoin`: drop empty
segments, keeping the first and last. -/
def filterMiddle (l : List Str) : List Str :=
  match l with
  | [] => []
  | [a] => [a]
  | a :: rest =>
    match rest.reverse with
    | [] => [a]
    | last :: midrev => a :: (midrev.reverse.filter (fun s => !s.isEmpty)) ++ [last]

/-- The `resolved_path` loop of `urljoin`: `..` pops (ignoring underflow),
`.` is dropped, anything else is appended. -/
def resolveLoop (segs : List Str) : List Str :=
  segs.foldl
    (fun acc seg =>
      if seg = str ".." then acc.dropLast
      else if seg = str "." then acc
      else acc ++ [seg])
    []

/-- The pure tail of `urljoin` once base and url are parsed (`b` is the parse
of the base with default scheme `''`, `u` the parse of `url` with default
scheme `b.scheme`, `url` the original second argument). -/
def urljoinCore (b u : ParseURL) (url : Str) : Str :=
  if u.scheme ≠ b.scheme ∨ ¬ u.scheme ∈ uses_relative then url
  else if u.scheme ∈ uses_netloc ∧ u.netloc ≠ [] then urlunparse u
  else
    let netloc := if u.scheme ∈ uses_netloc then b.netloc else u.netloc
    if u.path = [] ∧ u.params = [] then
      let query := if u.query = [] then b.query else u.query
      urlunparse ⟨u.scheme, netloc, b.path, b.params, query, u.fragment⟩
    else
      let base_parts0 := splitOnChar '/' b.path
      let base_parts :=
        if base_parts0.getLast? ≠ some [] then base_parts0.dropLast else base_parts0
      let segments :=
        if u.path.take 1 = ['/'] then splitOnChar '/' u.path
        else filterMiddle (base_parts ++ splitOnChar '/' u.path)
      let resolved := resolveLoop segments
      let resolved :=
        if segments.getLast? = some (str "..") ∨ segments.getLast? = some (str ".")
        then resolved ++ [[]] else resolved
      urlunparse ⟨u.scheme, netloc, joinOn '/' resolved, u.params, u.query, u.fragment⟩

/-- `urljoin(base, url)` (CPython 3.10); `none` models a `ValueError`
raised by one of the two inner `urlparse` calls. -/
def urljoin (base url : Str) : Option Str :=
  if base = [] then some url
  else if url = [] then some base
  else do
    let b ← urlparse base []
    let u ← urlparse url b.scheme
    return urljoinCore b u url

/-! ## The html_parser module -/

/-- `get_full_link(link, page_url)` from `html_parser.py`: build
`'{}://{}'.format(scheme, netloc)` from the page URL, and join the link
against it when the link has no netloc of its own. -/
def get_full_link (link page_url : Str) : Option Str := do
  let p ← urlparse page_url []
  let url_domain_address := p.scheme ++ str "://" ++ p.netloc
  let l ← urlparse link []
  if l.netloc = [] then urljoin url_domain_address link else return link

/-- `is_local_link(link, page_url)` from `html_parser.py`: compare the two
netlocs. -/
def is_local_link (link page_url : Str) : Option Bool := do
  let l ← urlparse link []
  let p ← urlparse page_url []
  return l.netloc == p.netloc

/-- `HTML_EXT` from `file_system_guide.py`.  Modelled from the spec: the
default extension is `html`. -/
def HTML_EXT : Str := str "html"

/-- Replace every character that is not alphanumeric with a hyphen
(the sanitisation step of the resource namer, spec section 4.2). -/
def hyphenize (l : Str) : Str := l.map (fun c => if c.isAlphanum then c else '-')

/-- Split a recognisable file extension off a path segment: the part after
the last `.`, when nonempty and alphanumeric. -/
def splitExtSeg (seg : Str) : Str × Str :=
  match rsplitOn '.' seg with
  | some (a, b) => if b ≠ [] ∧ b.all Char.isAlphanum then (a, b) else (seg, [])
  | none => (seg, [])

/-- Split a recognisable file extension off the last segment of a path. -/
def splitExt (path : Str) : Str × Str :=
  match rsplitOn '/' path with
  | some (a, b) =>
    let be := splitExtSeg b
    (a ++ '/' :: be.1, be.2)
  | none => splitExtSeg path

/-- The fields returned by `parse_url` of `file_system_guide.py`. -/
structure UrlParts where
  netloc : Str
  path : Str
  ext : Str
deriving Repr, DecidableEq

/-- Modelled from the spec: `parse_url` from
`page_loader.loading_handler.file_system_guide`, which is not under `src/`.
Per spec section 4.2 the namer takes the link's host and path, strips the
scheme, replaces every non-alphanumeric character with a hyphen across host
and path, and reuses a recognisable file extension from the path.  The
leading `/` of the path is dropped, its role being played by the literal
hyphen of `f'{netloc}-{path}.{ext}'` in `create_resource_name`. -/
def parse_url (link : Str) : Option UrlParts := do
  let u ← urlsplit link []
  let pe := splitExt u.path
  let p0 := match pe.1 with | '/' :: r => r | r => r
  return ⟨hyphenize u.netloc, hyphenize p0, pe.2⟩

/-- `create_resource_name(link)` from `html_parser.py`:
`f'{netloc}-{path}.{ext}'` with `ext` defaulting to `HTML_EXT`. -/
def create_resource_name (link : Str) : Option Str := do
  let p ← parse_url link
  let ext := if p.ext = [] then HTML_EXT else p.ext
  return p.netloc ++ '-' :: (p.path ++ '.' :: ext)

/-- Modelled from the spec: `get_dir_name` from
`page_loader.loading_handler.file_system_guide`, which is not under `src/`.
Per the spec the resources subdirectory is "named after the page": the
sanitised host and path of the page URL followed by `_files`. -/
def get_dir_name (page_url : Str) : Option Str := do
  let u ← urlsplit page_url []
  let p := match u.path.reverse with | '/' :: r => r.reverse | _ => u.path
  return hyphenize (u.netloc ++ p) ++ str "_files"

/-- `os.path.join(a, b)` for two drive-less components, parametrised by the
host separator (`/` on POSIX, `\` on Windows). -/
def path_join (sep : Char) (a b : Str) : Str :=
  if b.take 1 = [sep] then b
  else if a = [] ∨ a.getLast? = some sep then a ++ b
  else a ++ sep :: b

/-- An element node of the parse tree: tag name and attribute list.  The
tree built by the parser collaborator (BeautifulSoup) is modelled as the
document-ordered list of its element nodes. -/
structure Elem where
  name : Str
  attrs : List (Str × Str)
deriving Repr, DecidableEq

/-- A resource record `{'link': ..., 'name': ...}` as appended by
`search_resources`. -/
structure Resource where
  link : Str
  rname : Str
deriving Repr, DecidableEq

/-- BeautifulSoup attribute read `tag[attr]`; `none` models the `KeyError`
raised when the attribute is absent. -/
def getAttr (e : Elem) (a : Str) : Option Str :=
  (e.attrs.find? (fun p => p.1 == a)).map (fun p => p.2)

/-- BeautifulSoup attribute write `tag[attr] = v`. -/
def setAttrList : List (Str × Str) → Str → Str → List (Str × Str)
  | [], a, v => [(a, v)]
  | (k, w) :: rest, a, v =>
    if k == a then (a, v) :: rest else (k, w) :: setAttrList rest a v

/-- `tag[attr] = v` on an element. -/
def setAttr (e : Elem) (a v : Str) : Elem := ⟨e.name, setAttrList e.attrs a v⟩

/-- `TAGS_LINK_ATTRIBUTES` from `html_parser.py`, in dict insertion order. -/
def TAGS_LINK_ATTRIBUTES : List (Str × Str) :=
  [(str "img", str "src"), (str "link", str "href"), (str "script", str "src")]

/-- The body of the inner loop of `search_resources` for one element of a
matching kind: read the attribute (`KeyError` if missing), resolve it,
and when local, rewrite the attribute to `os.path.join(dir_name, name)` and
record the resource. -/
def processElem (sep : Char) (dir_name page_url attr : Str) (e : Elem) :
    Option (Elem × List Resource) := do
  let v ← getAttr e attr
  let link ← get_full_link v page_url
  let loc ← is_local_link link page_url
  if loc then
    let resource_name ← create_resource_name link
    return (setAttr e attr (path_join sep dir_name resource_name),
            [⟨link, resource_name⟩])
  else
    return (e, [])

/-- One iteration of the outer loop of `search_resources`: process every
element of kind `tagname` (as returned by `soup.find_all`) in document
order, mutating the tree in place and collecting resources. -/
def processPass (sep : Char) (dir_name page_url tagname attr : Str) :
    List Elem → Option (List Elem × List Resource)
  | [] => some ([], [])
  | e :: rest =>
    if e.name = tagname then do
      let er ← processElem sep dir_name page_url attr e
      let rr ← processPass sep dir_name page_url tagname attr rest
      return (er.1 :: rr.1, er.2 ++ rr.2)
    else do
      let rr ← processPass sep dir_name page_url tagname attr rest
      return (e :: rr.1, rr.2)

/-- `search_resources(html, page_url)` from `html_parser.py`, parametrised
by the host path separator used by `os.path.join`: iterate over
`TAGS_LINK_ATTRIBUTES` in dict order, mutating the tree and appending
resources.  Returns the mutated tree (serialisation by `soup.prettify` is
the parser collaborator's concern) and the resource list; `none` models an
uncaught `KeyError`/`ValueError`. -/
def search_resources_sep (sep : Char) (doc : List Elem) (page_url : Str) :
    Option (List Elem × List Resource) := do
  let dir_name ← get_dir_name page_url
  TAGS_LINK_ATTRIBUTES.foldlM
    (fun acc ta => do
      let dr ← processPass sep dir_name page_url ta.1 ta.2 acc.1
      return (dr.1, acc.2 ++ dr.2))
    (doc, ([] : List Resource))

/-- `search_resources` on a POSIX host (`os.path.join` uses `/`). -/
def search_resources (doc : List Elem) (page_url : Str) :
    Option (List Elem × List Resource) :=
  search_resources_sep '/' doc page_url

/-! ### The resource fetcher (`save_resources`) -/

/-- Outcome of `requests.get(url)`: a raised transport-level exception, or a
response with an HTTP status code and body (`.content`); `requests.get`
raises on transport failure but returns normally on HTTP error statuses. -/
inductive FetchOutcome where
  | raiseErr : FetchOutcome
  | resp (status : Nat) (content : List Nat) : FetchOutcome
deriving Repr, DecidableEq

/-- The body of a response (`[]` for a raised fetch, never used there). -/
def respContent : FetchOutcome → List Nat
  | .raiseErr => []
  | .resp _ c => c

/-- Observable trace of one `save_resources` run: the URLs fetched in
order, the `(path, bytes)` writes performed in order, and whether the loop
ran to completion (`False` when an exception aborted it). -/
structure SaveTrace where
  fetched : List Str
  written : List (Str × List Nat)
  ok : Bool
deriving Repr, DecidableEq

/-- `save_resources(resources, dir_path)` from `html_parser.py`, with the
transport (`requests.get`) and the filesystem (`open(...).write`) as
oracles: for each resource in order, fetch `resource['link']` (a raised
transport error aborts the loop), then write the body to
`os.path.join(dir_path, resource['name'])` (a failed open/write aborts the
loop).  The HTTP status of a returned response is never inspected. -/
def save_resources (fetch : Str → FetchOutcome) (writeOk : Str → Bool)
    (dir_path : Str) : List Resource → SaveTrace
  | [] => ⟨[], [], true⟩
  | r :: rest =>
    match fetch r.link with
    | .raiseErr => ⟨[r.link], [], false⟩
    | .resp _ c =>
      let resource_path := path_join '/' dir_path r.rname
      if writeOk resource_path then
        let t := save_resources fetch writeOk dir_path rest
        ⟨r.link :: t.fetched, (resource_path, c) :: t.written, t.ok⟩
      else ⟨[r.link], [], false⟩

/-! ## Helper lemmas: splitting and joining character lists -/

theorem splitFirst_eq_none (c : Char) (l : Str) (h : ¬ c ∈ l) :
    splitFirst c l = none := by
  induction l with
  | nil => rfl
  | cons a rest ih =>
    simp only [List.mem_cons, not_or] at h
    simp [splitFirst, Ne.symm h.1, ih h.2]

theorem splitFirst_eq_some (c : Char) :
    ∀ (l a b : Str), splitFirst c l = some (a, b) → l = a ++ c :: b ∧ ¬ c ∈ a := by
  intro l
  induction l with
  | nil => intro a b h; simp [splitFirst] at h
  | cons x rest ih =>
    intro a b h
    by_cases hx : x = c
    · subst hx
      simp only [splitFirst, if_pos rfl, if_true, Option.some.injEq, Prod.mk.injEq] at h
      obtain ⟨h1, h2⟩ := h
      rw [← h1, ← h2]
      exact ⟨rfl, by simp⟩
    · simp only [splitFirst, if_neg hx] at h
      cases hr : splitFirst c rest with
      | none => rw [hr] at h; simp at h
      | some pr =>
        rw [hr] at h
        simp only [Option.map_some', Option.some.injEq, Prod.mk.injEq] at h
        obtain ⟨h1, h2⟩ := ih pr.1 pr.2 (by rw [hr])
        refine ⟨?_, ?_⟩
        · rw [← h.1, ← h.2, h1]; simp
        · rw [← h.1]
          simp only [List.mem_cons, not_or]
          exact ⟨Ne.symm hx, h2⟩

theorem splitFirst_append (c : Char) (a b : Str) (h : ¬ c ∈ a) :
    splitFirst c (a ++ c :: b) = some (a, b) := by
  induction a with
  | nil => simp [splitFirst]
  | cons x rest ih =>
    simp only [List.mem_cons, not_or] at h
    simp [splitFirst, Ne.symm h.1, ih h.2]

theorem rsplitOn_eq_some (c : Char) :
    ∀ (l a b : Str), rsplitOn c l = some (a, b) → l = a ++ c :: b ∧ ¬ c ∈ b := by
  intro l
  induction l with
  | nil => intro a b h; simp [rsplitOn] at h
  | cons x rest ih =>
    intro a b h
    unfold rsplitOn at h
    cases hr : rsplitOn c rest with
    | some pr =>
      rw [hr] at h
      simp only [Option.some.injEq, Prod.mk.injEq] at h
      obtain ⟨h1, h2⟩ := ih pr.1 pr.2 (by rw [hr])
      refine ⟨?_, ?_⟩
      · rw [← h.1, ← h.2, h1]; simp
      · rw [← h.2]; exact h2
    | none =>
      rw [hr] at h
      by_cases hx : x = c
      · subst hx
        simp only [if_pos rfl, if_true, Option.some.injEq, Prod.mk.injEq] at h
        obtain ⟨h1, h2⟩ := h
        refine ⟨by rw [← h1, ← h2]; simp, ?_⟩
        rw [← h2]
        intro hmem
        obtain ⟨u, v, huv⟩ := List.append_of_mem hmem
        rw [huv] at hr
        have : ∀ (u2 : Str), rsplitOn x (u2 ++ x :: v) ≠ none := by
          intro u2
          induction u2 with
          | nil =>
            cases hrv : rsplitOn x v with
            | some pr2 => simp [rsplitOn, hrv]
            | none => simp [rsplitOn, hrv]
          | cons y ys ih2 =>
            simp only [List.cons_append, rsplitOn]
            cases hys : rsplitOn x (ys ++ x :: v) with
            | some pr2 => simp
            | none => exact absurd hys ih2
        exact this u hr
      · simp [hx] at h

theorem splitOnChar_ne_nil (c : Char) (l : Str) : splitOnChar c l ≠ [] := by
  cases l with
  | nil => simp [splitOnChar]
  | cons a rest =>
    simp only [splitOnChar]
    by_cases h : a = c
    · simp [h]
    · simp only [h, if_false]
      cases hr : splitOnChar c rest <;> simp

theorem joinOn_splitOnChar (c : Char) (l : Str) : joinOn c (splitOnChar c l) = l := by
  induction l with
  | nil => rfl
  | cons a rest ih =>
    simp only [splitOnChar]
    by_cases h : a = c
    · subst h
      cases hr : splitOnChar a rest with
      | nil => exact absurd hr (splitOnChar_ne_nil a rest)
      | cons s ss =>
        rw [hr] at ih
        simp [joinOn, ih]
    · simp only [h, if_false]
      cases hr : splitOnChar c rest with
      | nil => exact absurd hr (splitOnChar_ne_nil c rest)
      | cons s ss =>
        rw [hr] at ih
        cases ss with
        | nil => simp_all [joinOn]
        | cons t ts => simp_all [joinOn]

theorem takeWhile_append_of_all (p : Char → Bool) (l t : Str) (h : l.all p = true) :
    (l ++ t).takeWhile p = l ++ t.takeWhile p := by
  induction l with
  | nil => simp
  | cons a rest ih =>
    simp only [List.all_cons, Bool.and_eq_true] at h
    simp [List.takeWhile, h.1, ih h.2]

theorem dropWhile_append_of_all (p : Char → Bool) (l t : Str) (h : l.all p = true) :
    (l ++ t).dropWhile p = t.dropWhile p := by
  induction l with
  | nil => simp
  | cons a rest ih =>
    simp only [List.all_cons, Bool.and_eq_true] at h
    simp [List.dropWhile, h.1, ih h.2]

theorem all_takeWhile (p : Char → Bool) (l : Str) : (l.takeWhile p).all p = true := by
  induction l with
  | nil => simp
  | cons a rest ih =>
    by_cases h : p a = true
    · simp [List.takeWhile, h, ih]
    · simp [List.takeWhile, Bool.eq_false_iff.mpr h]

theorem takeWhile_eq_nil_of_head (p : Char → Bool) (l : Str)
    (h : l = [] ∨ ∃ c rest, l = c :: rest ∧ p c = false) :
    l.takeWhile p = [] := by
  rcases h with h | ⟨c, rest, rfl, hc⟩
  · simp [h]
  · simp [List.takeWhile, hc]

theorem mem_takeWhile_mem (p : Char → Bool) (l : Str) (c : Char)
    (h : c ∈ l.takeWhile p) : c ∈ l :=
  (List.takeWhile_sublist p).subset h

theorem mem_dropWhile_mem (p : Char → Bool) (l : Str) (c : Char)
    (h : c ∈ l.dropWhile p) : c ∈ l :=
  (List.dropWhile_sublist p).subset h

theorem sanitize_append (a b : Str) : sanitize (a ++ b) = sanitize a ++ sanitize b :=
  List.filter_append a b

theorem sanitize_eq_self (l : Str) (h : l.all cleanChar = true) : sanitize l = l := by
  unfold sanitize
  rw [List.all_eq_true] at h
  exact List.filter_eq_self.mpr h

theorem mem_sanitize_clean (l : Str) (c : Char) (h : c ∈ sanitize l) :
    cleanChar c = true :=
  List.of_mem_filter h

theorem mem_sanitize_mem (l : Str) (c : Char) (h : c ∈ sanitize l) : c ∈ l :=
  List.mem_of_mem_filter h

/-- Every character of a piece of `splitOnChar c l` is a character of `l`. -/
theorem mem_splitOnChar_mem (c : Char) :
    ∀ (l : Str) (s : Str), s ∈ splitOnChar c l → ∀ x ∈ s, x ∈ l := by
  intro l
  induction l with
  | nil => intro s hs x hx; simp [splitOnChar] at hs; simp [hs] at hx
  | cons a rest ih =>
    intro s hs x hx
    simp only [splitOnChar] at hs
    by_cases ha : a = c
    · rw [if_pos ha] at hs
      rcases List.mem_cons.mp hs with h | h
      · simp [h] at hx
      · exact List.mem_cons_of_mem a (ih s h x hx)
    · rw [if_neg ha] at hs
      cases hr : splitOnChar c rest with
      | nil => exact absurd hr (splitOnChar_ne_nil c rest)
      | cons t ts =>
        rw [hr] at hs
        rcases List.mem_cons.mp hs with h | h
        · subst h
          rcases List.mem_cons.mp hx with h | h
          · simp [h]
          · exact List.mem_cons_of_mem a (ih t (by rw [hr]; exact List.mem_cons_self t ts) x h)
        · exact List.mem_cons_of_mem a (ih s (by rw [hr]; exact List.mem_cons_of_mem t h) x hx)

/-- No piece of `splitOnChar c l` contains `c`. -/
theorem splitOnChar_not_mem (c : Char) :
    ∀ (l : Str) (s : Str), s ∈ splitOnChar c l → ¬ c ∈ s := by
  intro l
  induction l with
  | nil => intro s hs; simp [splitOnChar] at hs; simp [hs]
  | cons a rest ih =>
    intro s hs
    simp only [splitOnChar] at hs
    by_cases ha : a = c
    · rw [if_pos ha] at hs
      rcases List.mem_cons.mp hs with h | h
      · simp [h]
      · exact ih s h
    · rw [if_neg ha] at hs
      cases hr : splitOnChar c rest with
      | nil => exact absurd hr (splitOnChar_ne_nil c rest)
      | cons t ts =>
        rw [hr] at hs
        rcases List.mem_cons.mp hs with h | h
        · subst h
          intro hmem
          rcases List.mem_cons.mp hmem with h | h
          · exact ha h.symm
          · exact ih t (by rw [hr]; exact List.mem_cons_self t ts) h
        · exact ih s (by rw [hr]; exact List.mem_cons_of_mem t h)

theorem splitOnChar_cons_self (c : Char) (l : Str) :
    splitOnChar c (c :: l) = [] :: splitOnChar c l := by
  simp [splitOnChar]

theorem joinOn_cons (c : Char) (s : Str) (t : Str) (ts : List Str) :
    joinOn c (s :: t :: ts) = s ++ c :: joinOn c (t :: ts) := rfl

theorem splitOnChar_not_mem_self (c : Char) (s : Str) (hs : ¬ c ∈ s) :
    splitOnChar c s = [s] := by
  induction s with
  | nil => rfl
  | cons a as ih =>
    simp only [List.mem_cons, not_or] at hs
    simp only [splitOnChar, if_neg (Ne.symm hs.1)]
    rw [ih hs.2]

theorem splitOnChar_append_cons (c : Char) (s rest2 : Str) (hs : ¬ c ∈ s) :
    splitOnChar c (s ++ c :: rest2) = s :: splitOnChar c rest2 := by
  induction s with
  | nil => simp [splitOnChar_cons_self]
  | cons a as ih =>
    simp only [List.mem_cons, not_or] at hs
    simp only [List.cons_append, splitOnChar, if_neg (Ne.symm hs.1)]
    rw [List.append_eq, ih hs.2]

/-- Splitting a join of `c`-free pieces recovers the pieces. -/
theorem splitOnChar_joinOn (c : Char) :
    ∀ (segs : List Str), segs ≠ [] → (∀ s ∈ segs, ¬ c ∈ s) →
      splitOnChar c (joinOn c segs) = segs := by
  intro segs
  induction segs with
  | nil => intro h; exact absurd rfl h
  | cons s rest ih =>
    intro _ hns
    cases rest with
    | nil =>
      simp only [joinOn]
      exact splitOnChar_not_mem_self c s (hns s (List.mem_cons_self s []))
    | cons t ts =>
      have hs : ¬ c ∈ s := hns s (List.mem_cons_self s (t :: ts))
      have hrest : splitOnChar c (joinOn c (t :: ts)) = t :: ts :=
        ih (by simp) (fun x hx => hns x (List.mem_cons_of_mem s hx))
      rw [joinOn_cons, splitOnChar_append_cons c s _ hs, hrest]

/-- Every character of `joinOn c segs` is `c` or a character of a piece. -/
theorem mem_joinOn (c : Char) :
    ∀ (segs : List Str) (x : Char), x ∈ joinOn c segs →
      x = c ∨ ∃ s ∈ segs, x ∈ s := by
  intro segs
  induction segs with
  | nil => intro x hx; simp [joinOn] at hx
  | cons s rest ih =>
    intro x hx
    cases rest with
    | nil =>
      simp only [joinOn] at hx
      exact Or.inr ⟨s, List.mem_cons_self s [], hx⟩
    | cons t ts =>
      have : joinOn c (s :: t :: ts) = s ++ c :: joinOn c (t :: ts) := rfl
      rw [this] at hx
      rcases List.mem_append.mp hx with h | h
      · exact Or.inr ⟨s, List.mem_cons_self s (t :: ts), h⟩
      · rcases List.mem_cons.mp h with h | h
        · exact Or.inl h
        · rcases ih x h with h2 | ⟨u, hu, hxu⟩
          · exact Or.inl h2
          · exact Or.inr ⟨u, List.mem_cons_of_mem s hu, hxu⟩


/-! ## Structure of `urlsplit` results -/

theorem urlsplit_eq_some_iff (url d : Str) (b : SplitURL) :
    urlsplit url d = some b ↔ urlsplitTotal url d = b ∧ bracketOk b.netloc = true := by
  unfold urlsplit
  by_cases h : bracketOk (urlsplitTotal url d).netloc = true
  · simp only [h, if_true]
    constructor
    · intro he
      have : urlsplitTotal url d = b := by injection he
      exact ⟨this, this ▸ h⟩
    · intro he; rw [he.1]
  · simp only [if_neg h]
    constructor
    · intro he; exact absurd he (by simp)
    · intro he; exact absurd (he.1 ▸ he.2) h

theorem splitFirst_none_not_mem (c : Char) :
    ∀ (l : Str), splitFirst c l = none → ¬ c ∈ l := by
  intro l
  induction l with
  | nil => intro _ h; simp at h
  | cons a rest ih =>
    intro h hmem
    by_cases ha : a = c
    · simp [splitFirst, ha] at h
    · simp only [splitFirst, if_neg ha, Option.map_eq_none'] at h
      rcases List.mem_cons.mp hmem with he | he
      · exact ha he.symm
      · exact ih h he

theorem schemeSplit_snd_mem (x : Str) (y : Char) (h : y ∈ (schemeSplit x).2) : y ∈ x := by
  unfold schemeSplit at h
  cases hs : splitFirst ':' x with
  | none => rw [hs] at h; exact h
  | some pr =>
    obtain ⟨p1, p2⟩ := pr
    rw [hs] at h
    dsimp only at h
    by_cases hc : p1 ≠ [] ∧ p1.all scheme_char
    · rw [if_pos hc] at h
      obtain ⟨hd, _⟩ := splitFirst_eq_some ':' x p1 p2 hs
      rw [hd]
      simp only [List.mem_append, List.mem_cons]
      exact Or.inr (Or.inr h)
    · rw [if_neg hc] at h; exact h

theorem netlocSplit_fst_all (x : Str) : ((netlocSplit x).1).all netlocChar = true := by
  unfold netlocSplit
  by_cases h : x.take 2 = str "//"
  · rw [if_pos h]; exact all_takeWhile netlocChar (x.drop 2)
  · rw [if_neg h]; rfl

theorem netlocSplit_fst_mem (x : Str) (y : Char) (h : y ∈ (netlocSplit x).1) : y ∈ x := by
  unfold netlocSplit at h
  by_cases ht : x.take 2 = str "//"
  · rw [if_pos ht] at h
    exact List.mem_of_mem_drop (mem_takeWhile_mem netlocChar (x.drop 2) y h)
  · rw [if_neg ht] at h; simp at h

theorem netlocSplit_snd_mem (x : Str) (y : Char) (h : y ∈ (netlocSplit x).2) : y ∈ x := by
  unfold netlocSplit at h
  by_cases ht : x.take 2 = str "//"
  · rw [if_pos ht] at h
    exact List.mem_of_mem_drop (mem_dropWhile_mem netlocChar (x.drop 2) y h)
  · rw [if_neg ht] at h; exact h

theorem splitHash_fst_mem (x : Str) (y : Char) (h : y ∈ (splitHash x).1) : y ∈ x := by
  unfold splitHash at h
  cases hs : splitFirst '#' x with
  | none => rw [hs] at h; exact h
  | some pr =>
    rw [hs] at h
    obtain ⟨hd, _⟩ := splitFirst_eq_some '#' x pr.1 pr.2 hs
    rw [hd]; exact List.mem_append_left _ h

theorem splitHash_snd_mem (x : Str) (y : Char) (h : y ∈ (splitHash x).2) : y ∈ x := by
  unfold splitHash at h
  cases hs : splitFirst '#' x with
  | none => rw [hs] at h; simp at h
  | some pr =>
    rw [hs] at h
    obtain ⟨hd, _⟩ := splitFirst_eq_some '#' x pr.1 pr.2 hs
    rw [hd]
    simp only [List.mem_append, List.mem_cons]
    exact Or.inr (Or.inr h)

theorem splitHash_fst_no_hash (x : Str) : ¬ '#' ∈ (splitHash x).1 := by
  unfold splitHash
  cases hs : splitFirst '#' x with
  | none => exact splitFirst_none_not_mem '#' x hs
  | some pr => exact (splitFirst_eq_some '#' x pr.1 pr.2 hs).2

theorem splitQm_fst_no_qm (x : Str) : ¬ '?' ∈ (splitQm x).1 := by
  unfold splitQm
  cases hs : splitFirst '?' x with
  | none => exact splitFirst_none_not_mem '?' x hs
  | some pr => exact (splitFirst_eq_some '?' x pr.1 pr.2 hs).2

theorem splitQm_fst_mem (x : Str) (y : Char) (h : y ∈ (splitQm x).1) : y ∈ x := by
  unfold splitQm at h
  cases hs : splitFirst '?' x with
  | none => rw [hs] at h; exact h
  | some pr =>
    rw [hs] at h
    obtain ⟨hd, _⟩ := splitFirst_eq_some '?' x pr.1 pr.2 hs
    rw [hd]; exact List.mem_append_left _ h

theorem splitQm_snd_mem (x : Str) (y : Char) (h : y ∈ (splitQm x).2) : y ∈ x := by
  unfold splitQm at h
  cases hs : splitFirst '?' x with
  | none => rw [hs] at h; simp at h
  | some pr =>
    rw [hs] at h
    obtain ⟨hd, _⟩ := splitFirst_eq_some '?' x pr.1 pr.2 hs
    rw [hd]
    simp only [List.mem_append, List.mem_cons]
    exact Or.inr (Or.inr h)

theorem splitparams_fst_mem (x : Str) (y : Char) (h : y ∈ (splitparams x).1) : y ∈ x := by
  unfold splitparams at h
  cases hr : rsplitOn '/' x with
  | some pr =>
    obtain ⟨a, b⟩ := pr
    rw [hr] at h
    dsimp only at h
    cases hf : splitFirst ';' b with
    | some qr =>
      obtain ⟨u, v⟩ := qr
      rw [hf] at h
      dsimp only at h
      obtain ⟨hd1, _⟩ := rsplitOn_eq_some '/' x a b hr
      obtain ⟨hd2, _⟩ := splitFirst_eq_some ';' b u v hf
      rw [hd1, hd2]
      simp only [List.mem_append, List.mem_cons] at h ⊢
      rcases h with h | h | h
      · exact Or.inl h
      · exact Or.inr (Or.inl h)
      · exact Or.inr (Or.inr (Or.inl h))
    | none => rw [hf] at h; exact h
  | none =>
    rw [hr] at h
    dsimp only at h
    cases hf : splitFirst ';' x with
    | some qr =>
      obtain ⟨u, v⟩ := qr
      rw [hf] at h
      dsimp only at h
      obtain ⟨hd2, _⟩ := splitFirst_eq_some ';' x u v hf
      rw [hd2]
      exact List.mem_append_left _ h
    | none => rw [hf] at h; exact h

theorem splitparams_snd_mem (x : Str) (y : Char) (h : y ∈ (splitparams x).2) : y ∈ x := by
  unfold splitparams at h
  cases hr : rsplitOn '/' x with
  | some pr =>
    obtain ⟨a, b⟩ := pr
    rw [hr] at h
    dsimp only at h
    cases hf : splitFirst ';' b with
    | some qr =>
      obtain ⟨u, v⟩ := qr
      rw [hf] at h
      dsimp only at h
      obtain ⟨hd1, _⟩ := rsplitOn_eq_some '/' x a b hr
      obtain ⟨hd2, _⟩ := splitFirst_eq_some ';' b u v hf
      rw [hd1, hd2]
      simp only [List.mem_append, List.mem_cons]
      exact Or.inr (Or.inr (Or.inr (Or.inr h)))
    | none => rw [hf] at h; simp at h
  | none =>
    rw [hr] at h
    dsimp only at h
    cases hf : splitFirst ';' x with
    | some qr =>
      obtain ⟨u, v⟩ := qr
      rw [hf] at h
      dsimp only at h
      obtain ⟨hd2, _⟩ := splitFirst_eq_some ';' x u v hf
      rw [hd2]
      simp only [List.mem_append, List.mem_cons]
      exact Or.inr (Or.inr h)
    | none => rw [hf] at h; simp at h

/-! ### Components of `urlsplitTotal` -/

theorem urlsplitTotal_def (url d : Str) :
    urlsplitTotal url d =
      ⟨(match (schemeSplit (sanitize url)).1 with | some s => s | none => sanitize d),
       (netlocSplit (schemeSplit (sanitize url)).2).1,
       (splitQm (splitHash (netlocSplit (schemeSplit (sanitize url)).2).2).1).1,
       (splitQm (splitHash (netlocSplit (schemeSplit (sanitize url)).2).2).1).2,
       (splitHash (netlocSplit (schemeSplit (sanitize url)).2).2).2⟩ := rfl

theorem urlsplitTotal_netloc_default (url d : Str) :
    (urlsplitTotal url d).netloc = (urlsplitTotal url []).netloc := rfl

theorem urlsplitTotal_path_default (url d : Str) :
    (urlsplitTotal url d).path = (urlsplitTotal url []).path := rfl

theorem urlsplitTotal_query_default (url d : Str) :
    (urlsplitTotal url d).query = (urlsplitTotal url []).query := rfl

theorem urlsplitTotal_fragment_default (url d : Str) :
    (urlsplitTotal url d).fragment = (urlsplitTotal url []).fragment := rfl

theorem urlsplitTotal_netloc_all (url d : Str) :
    ((urlsplitTotal url d).netloc).all netlocChar = true :=
  netlocSplit_fst_all _

theorem urlsplitTotal_netloc_mem (url d : Str) (y : Char)
    (h : y ∈ (urlsplitTotal url d).netloc) : y ∈ sanitize url :=
  schemeSplit_snd_mem _ y (netlocSplit_fst_mem _ y h)

theorem urlsplitTotal_path_mem (url d : Str) (y : Char)
    (h : y ∈ (urlsplitTotal url d).path) : y ∈ sanitize url :=
  schemeSplit_snd_mem _ y (netlocSplit_snd_mem _ y
    (splitHash_fst_mem _ y (splitQm_fst_mem _ y h)))

theorem urlsplitTotal_query_mem (url d : Str) (y : Char)
    (h : y ∈ (urlsplitTotal url d).query) : y ∈ sanitize url :=
  schemeSplit_snd_mem _ y (netlocSplit_snd_mem _ y
    (splitHash_fst_mem _ y (splitQm_snd_mem _ y h)))

theorem urlsplitTotal_fragment_mem (url d : Str) (y : Char)
    (h : y ∈ (urlsplitTotal url d).fragment) : y ∈ sanitize url :=
  schemeSplit_snd_mem _ y (netlocSplit_snd_mem _ y (splitHash_snd_mem _ y h))

theorem all_clean_of_mem_sanitize (url : Str) (l : Str)
    (h : ∀ y ∈ l, y ∈ sanitize url) : l.all cleanChar = true := by
  rw [List.all_eq_true]
  intro y hy
  exact mem_sanitize_clean url y (h y hy)

/-! ### `urlparse` as a view on `urlsplit` -/

theorem urlparse_some_elim (url d : Str) (u : ParseURL) (h : urlparse url d = some u) :
    ∃ b : SplitURL, urlsplit url d = some b ∧
      (((uses_params.contains b.scheme && b.path.contains ';') = true ∧
        u = ⟨b.scheme, b.netloc, (splitparams b.path).1, (splitparams b.path).2,
             b.query, b.fragment⟩) ∨
       ((uses_params.contains b.scheme && b.path.contains ';') = false ∧
        u = ⟨b.scheme, b.netloc, b.path, [], b.query, b.fragment⟩)) := by
  unfold urlparse at h
  cases hs : urlsplit url d with
  | none => rw [hs] at h; exact absurd h (by simp)
  | some b =>
    rw [hs] at h
    dsimp only at h
    refine ⟨b, rfl, ?_⟩
    cases hg : uses_params.contains b.scheme && b.path.contains ';' with
    | true =>
      rw [hg] at h
      exact Or.inl ⟨rfl, by injection h; simp_all⟩
    | false =>
      rw [hg] at h
      exact Or.inr ⟨rfl, by injection h; simp_all⟩

theorem urlparse_intro_params (url d : Str) (b : SplitURL)
    (hb : urlsplit url d = some b)
    (hg : (uses_params.contains b.scheme && b.path.contains ';') = true) :
    urlparse url d = some ⟨b.scheme, b.netloc, (splitparams b.path).1,
                           (splitparams b.path).2, b.query, b.fragment⟩ := by
  unfold urlparse
  rw [hb]
  dsimp only
  rw [hg]

theorem urlparse_intro_plain (url d : Str) (b : SplitURL)
    (hb : urlsplit url d = some b)
    (hg : (uses_params.contains b.scheme && b.path.contains ';') = false) :
    urlparse url d = some ⟨b.scheme, b.netloc, b.path, [], b.query, b.fragment⟩ := by
  unfold urlparse
  rw [hb]
  dsimp only
  rw [hg]

theorem urlparse_none_iff (url d : Str) :
    urlparse url d = none ↔ urlsplit url d = none := by
  unfold urlparse
  cases hs : urlsplit url d with
  | none => simp
  | some b =>
    dsimp only
    cases uses_params.contains b.scheme && b.path.contains ';' <;> simp

theorem urlsplit_none_default (url d : Str) :
    urlsplit url d = none ↔ urlsplit url [] = none := by
  unfold urlsplit
  rw [urlsplitTotal_netloc_default url d]
  by_cases h : bracketOk (urlsplitTotal url []).netloc = true <;> simp [h]

theorem urlparse_wf (url d : Str) (u : ParseURL) (h : urlparse url d = some u) :
    u.netloc.all netlocChar = true ∧ bracketOk u.netloc = true ∧
    u.netloc.all cleanChar = true ∧ u.path.all cleanChar = true ∧
    u.params.all cleanChar = true ∧ u.query.all cleanChar = true ∧
    u.fragment.all cleanChar = true := by
  obtain ⟨b, hb, hu⟩ := urlparse_some_elim url d u h
  obtain ⟨hbt, hbr⟩ := (urlsplit_eq_some_iff url d b).mp hb
  have hnet : b.netloc.all netlocChar = true := by
    rw [← hbt]; exact urlsplitTotal_netloc_all url d
  have hnetc : b.netloc.all cleanChar = true := by
    apply all_clean_of_mem_sanitize url
    intro y hy
    rw [← hbt] at hy
    exact urlsplitTotal_netloc_mem url d y hy
  have hpathc : b.path.all cleanChar = true := by
    apply all_clean_of_mem_sanitize url
    intro y hy
    rw [← hbt] at hy
    exact urlsplitTotal_path_mem url d y hy
  have hqc : b.query.all cleanChar = true := by
    apply all_clean_of_mem_sanitize url
    intro y hy
    rw [← hbt] at hy
    exact urlsplitTotal_query_mem url d y hy
  have hfc : b.fragment.all cleanChar = true := by
    apply all_clean_of_mem_sanitize url
    intro y hy
    rw [← hbt] at hy
    exact urlsplitTotal_fragment_mem url d y hy
  rcases hu with ⟨_, hu⟩ | ⟨_, hu⟩
  · subst hu
    refine ⟨hnet, hbr, hnetc, ?_, ?_, hqc, hfc⟩
    · rw [List.all_eq_true]
      intro y hy
      rw [List.all_eq_true] at hpathc
      exact hpathc y (splitparams_fst_mem b.path y hy)
    · rw [List.all_eq_true]
      intro y hy
      rw [List.all_eq_true] at hpathc
      exact hpathc y (splitparams_snd_mem b.path y hy)
  · subst hu
    exact ⟨hnet, hbr, hnetc, hpathc, by simp, hqc, hfc⟩

theorem schemeSplit_fst_ne_nil (x : Str) (s : Str) (h : (schemeSplit x).1 = some s) :
    s ≠ [] := by
  unfold schemeSplit at h
  cases hs : splitFirst ':' x with
  | none => rw [hs] at h; simp at h
  | some pr =>
    obtain ⟨p1, p2⟩ := pr
    rw [hs] at h
    dsimp only at h
    by_cases hc : p1 ≠ [] ∧ p1.all scheme_char
    · rw [if_pos hc] at h
      simp only [Option.some.injEq] at h
      rw [← h]
      intro hemp
      exact hc.1 (List.map_eq_nil_iff.mp hemp)
    · rw [if_neg hc] at h; simp at h

theorem urlsplitTotal_scheme_empty_set (url : Str)
    (h : (urlsplitTotal url []).scheme = []) (d : Str) :
    urlsplitTotal url d = { urlsplitTotal url [] with scheme := sanitize d } := by
  cases hs : (schemeSplit (sanitize url)).1 with
  | some s =>
    exfalso
    have : (urlsplitTotal url []).scheme = s := by
      rw [urlsplitTotal_def, hs]
    exact schemeSplit_fst_ne_nil (sanitize url) s hs (by rw [← this, h])
  | none =>
    rw [urlsplitTotal_def url d, urlsplitTotal_def url [], hs]

theorem urlparse_change_default (url s : Str) (u : ParseURL)
    (h : urlparse url [] = some u) (hsch : u.scheme = [])
    (hcs : s.all cleanChar = true) (hup : s ∈ uses_params) :
    urlparse url s = some ⟨s, u.netloc, u.path, u.params, u.query, u.fragment⟩ := by
  obtain ⟨b, hb, hu⟩ := urlparse_some_elim url [] u h
  obtain ⟨hbt, hbr⟩ := (urlsplit_eq_some_iff url [] b).mp hb
  have hbs : b.scheme = [] := by
    rcases hu with ⟨_, hu⟩ | ⟨_, hu⟩ <;> (rw [hu] at hsch; exact hsch)
  have hset : urlsplitTotal url s = { urlsplitTotal url [] with scheme := sanitize s } :=
    urlsplitTotal_scheme_empty_set url (by rw [hbt, hbs]) s
  have hss : sanitize s = s := sanitize_eq_self s hcs
  have hsplit2 : urlsplit url s = some { b with scheme := s } := by
    rw [urlsplit_eq_some_iff]
    constructor
    · rw [hset, hbt, hss]
    · exact hbr
  have hc0 : uses_params.contains ([] : Str) = true := by decide
  have hcsm : uses_params.contains s = true := by simpa using hup
  rcases hu with ⟨hg, hu⟩ | ⟨hg, hu⟩
  · have hsemi : b.path.contains ';' = true := by
      rw [hbs, hc0] at hg
      simpa using hg
    have hg2 : (uses_params.contains ({ b with scheme := s } : SplitURL).scheme &&
        ({ b with scheme := s } : SplitURL).path.contains ';') = true := by
      dsimp only
      rw [hcsm, hsemi]
      rfl
    have := urlparse_intro_params url s { b with scheme := s } hsplit2 hg2
    rw [this, hu]
  · have hsemi : b.path.contains ';' = false := by
      rw [hbs, hc0] at hg
      simpa using hg
    have hg2 : (uses_params.contains ({ b with scheme := s } : SplitURL).scheme &&
        ({ b with scheme := s } : SplitURL).path.contains ';') = false := by
      dsimp only
      rw [hsemi, Bool.and_false]
    have := urlparse_intro_plain url s { b with scheme := s } hsplit2 hg2
    rw [this, hu]

/-! ### Reassembled URLs parse back to their components -/

theorem scheme_char_clean (c : Char) (h : scheme_char c = true) : cleanChar c = true := by
  have h1 : c ≠ '\t' := by intro e; rw [e] at h; exact absurd h (by decide)
  have h2 : c ≠ '\r' := by intro e; rw [e] at h; exact absurd h (by decide)
  have h3 : c ≠ '\n' := by intro e; rw [e] at h; exact absurd h (by decide)
  simp [cleanChar, h1, h2, h3]

theorem all_scheme_char_facts (s : Str) (h : s.all scheme_char = true) :
    ¬ ':' ∈ s ∧ s.all cleanChar = true := by
  rw [List.all_eq_true] at h
  constructor
  · intro hmem
    have := h ':' hmem
    exact absurd this (by decide)
  · rw [List.all_eq_true]
    intro c hc
    exact scheme_char_clean c (h c hc)

/-- Proof helper: the path component as emitted by `urlunsplit` when a
netloc is present (made absolute unless empty). -/
def ensuredPath (p : Str) : Str :=
  if !p.isEmpty && p.take 1 ≠ str "/" then '/' :: p else p

/-- Proof helper: the optional `?query` / `#fragment` piece of `urlunsplit`. -/
def optPre (c : Char) (x : Str) : Str := if !x.isEmpty then c :: x else []

/-- The shape of `urlunsplit` output when scheme and netloc are nonempty. -/
theorem urlunsplit_eq_form (s n p q f : Str) (hs : s ≠ []) (hn : n ≠ []) :
    urlunsplit s n p q f =
      s ++ ':' :: '/' :: '/' :: (n ++ (ensuredPath p ++ optPre '?' q ++ optPre '#' f)) := by
  unfold urlunsplit ensuredPath optPre
  have hnb : (!n.isEmpty || p.take 2 = str "//") = true := by
    simp [List.isEmpty_iff, hn]
  have hsb : (!s.isEmpty) = true := by simp [List.isEmpty_iff, hs]
  simp only [hnb, hsb, if_true]
  by_cases hq : q.isEmpty <;> by_cases hf : f.isEmpty <;>
    simp [hq, hf, List.append_assoc]

/-- The tail after the netloc in `urlunsplit` output is empty or starts with
a netloc-terminating character. -/
theorem unsplitTail_head (p q f : Str) :
    ensuredPath p ++ optPre '?' q ++ optPre '#' f = [] ∨
      ∃ c t, ensuredPath p ++ optPre '?' q ++ optPre '#' f = c :: t ∧
        netlocChar c = false := by
  have hp : ensuredPath p = [] ∨ ∃ t, ensuredPath p = '/' :: t := by
    unfold ensuredPath
    by_cases h0 : p.isEmpty
    · left
      rw [List.isEmpty_iff.mp h0]
      simp
    · by_cases h1 : p.take 1 ≠ str "/"
      · right
        rw [if_pos (by simp [h0, h1])]
        exact ⟨p, rfl⟩
      · right
        rw [not_not] at h1
        rw [if_neg (by simp [h1])]
        cases p with
        | nil => simp at h0
        | cons a rest =>
          have : a = '/' := by
            have := h1
            simp [List.take, str] at this
            exact this
          exact ⟨rest, by rw [this]⟩
  rcases hp with hp | ⟨t, hp⟩
  · rw [hp, List.nil_append]
    by_cases hq : q.isEmpty
    · have hq0 : optPre '?' q = [] := by simp [optPre, hq]
      rw [hq0, List.nil_append]
      by_cases hf : f.isEmpty
      · left; simp [optPre, hf]
      · right
        refine ⟨'#', f, ?_, by decide⟩
        simp [optPre, hf]
    · right
      refine ⟨'?', q ++ optPre '#' f, ?_, by decide⟩
      simp [optPre, hq]
  · right
    refine ⟨'/', t ++ optPre '?' q ++ optPre '#' f, ?_, by decide⟩
    rw [hp]
    simp [List.append_assoc]

/-- The tail is clean when path, query and fragment are clean. -/
theorem unsplitTail_clean (p q f : Str) (hp : p.all cleanChar = true)
    (hq : q.all cleanChar = true) (hf : f.all cleanChar = true) :
    (ensuredPath p ++ optPre '?' q ++ optPre '#' f).all cleanChar = true := by
  have h1 : (ensuredPath p).all cleanChar = true := by
    unfold ensuredPath
    by_cases h : (!p.isEmpty && p.take 1 ≠ str "/") = true
    · rw [if_pos h]
      simp only [List.all_cons, Bool.and_eq_true]
      exact ⟨by decide, hp⟩
    · rw [if_neg (by simpa using h)]; exact hp
  have h2 : (optPre '?' q).all cleanChar = true := by
    unfold optPre
    by_cases h : (!q.isEmpty) = true
    · rw [if_pos h]
      simp only [List.all_cons, Bool.and_eq_true]
      exact ⟨by decide, hq⟩
    · rw [if_neg (by simpa using h)]; rfl
  have h3 : (optPre '#' f).all cleanChar = true := by
    unfold optPre
    by_cases h : (!f.isEmpty) = true
    · rw [if_pos h]
      simp only [List.all_cons, Bool.and_eq_true]
      exact ⟨by decide, hf⟩
    · rw [if_neg (by simpa using h)]; rfl
  simp only [List.all_append, Bool.and_eq_true]
  exact ⟨⟨h1, h2⟩, h3⟩

theorem dropWhile_eq_self_of_head (p : Char → Bool) (l : Str)
    (h : l = [] ∨ ∃ c rest, l = c :: rest ∧ p c = false) :
    l.dropWhile p = l := by
  rcases h with h | ⟨c, rest, rfl, hc⟩
  · simp [h]
  · simp [List.dropWhile, hc]

/-- Re-splitting the output of `urlunsplit` (nonempty lowercase scheme of
scheme chars, nonempty bracket-balanced netloc of netloc chars, clean
components) recovers the scheme and the netloc. -/
theorem urlsplit_unsplit (s n p q f : Str)
    (hs0 : s ≠ []) (hs1 : s.all scheme_char = true) (hs2 : s.map lowerChar = s)
    (hn0 : n ≠ []) (hn1 : n.all netlocChar = true) (hnb : bracketOk n = true)
    (hcn : n.all cleanChar = true) (hcp : p.all cleanChar = true)
    (hcq : q.all cleanChar = true) (hcf : f.all cleanChar = true) :
    urlsplit (urlunsplit s n p q f) [] =
      some ⟨s, n,
        (splitQm (splitHash (ensuredPath p ++ optPre '?' q ++ optPre '#' f)).1).1,
        (splitQm (splitHash (ensuredPath p ++ optPre '?' q ++ optPre '#' f)).1).2,
        (splitHash (ensuredPath p ++ optPre '?' q ++ optPre '#' f)).2⟩ := by
  have hform := urlunsplit_eq_form s n p q f hs0 hn0
  obtain ⟨hcolon, hsclean⟩ := all_scheme_char_facts s hs1
  have hTclean := unsplitTail_clean p q f hcp hcq hcf
  have hThead := unsplitTail_head p q f
  have hclean : (urlunsplit s n p q f).all cleanChar = true := by
    rw [hform]
    simp only [List.all_append, List.all_cons, Bool.and_eq_true] at hTclean ⊢
    exact ⟨hsclean, by decide, by decide, by decide, hcn, hTclean⟩
  have hsan : sanitize (urlunsplit s n p q f) = urlunsplit s n p q f :=
    sanitize_eq_self _ hclean
  have hsf : splitFirst ':' (urlunsplit s n p q f) =
      some (s, '/' :: '/' :: (n ++ (ensuredPath p ++ optPre '?' q ++ optPre '#' f))) := by
    rw [hform]
    exact splitFirst_append ':' s _ hcolon
  have hss : schemeSplit (urlunsplit s n p q f) =
      (some s, '/' :: '/' :: (n ++ (ensuredPath p ++ optPre '?' q ++ optPre '#' f))) := by
    unfold schemeSplit
    rw [hsf]
    dsimp only
    rw [if_pos ⟨hs0, hs1⟩, hs2]
  have htw : ((ensuredPath p ++ optPre '?' q ++ optPre '#' f).takeWhile netlocChar) = [] :=
    takeWhile_eq_nil_of_head netlocChar _ hThead
  have hdw : ((ensuredPath p ++ optPre '?' q ++ optPre '#' f).dropWhile netlocChar) =
      ensuredPath p ++ optPre '?' q ++ optPre '#' f :=
    dropWhile_eq_self_of_head netlocChar _ hThead
  have hnet : netlocSplit
      ('/' :: '/' :: (n ++ (ensuredPath p ++ optPre '?' q ++ optPre '#' f))) =
      (n, ensuredPath p ++ optPre '?' q ++ optPre '#' f) := by
    unfold netlocSplit
    rw [if_pos (by rfl)]
    simp only [List.drop_succ_cons, List.drop_zero]
    rw [takeWhile_append_of_all netlocChar n _ hn1,
        dropWhile_append_of_all netlocChar n _ hn1, htw, hdw, List.append_nil]
  have hcore : urlsplitTotal (urlunsplit s n p q f) [] =
      ⟨s, n,
       (splitQm (splitHash (ensuredPath p ++ optPre '?' q ++ optPre '#' f)).1).1,
       (splitQm (splitHash (ensuredPath p ++ optPre '?' q ++ optPre '#' f)).1).2,
       (splitHash (ensuredPath p ++ optPre '?' q ++ optPre '#' f)).2⟩ := by
    rw [urlsplitTotal_def, hsan, hss, hnet]
  unfold urlsplit
  rw [hcore]
  rw [if_pos hnb]

/-- `scheme://netloc` (the `DOMAIN_ADDRESS` of html_parser) parses back
exactly. -/
theorem urlparse_domain (s n : Str)
    (hs0 : s ≠ []) (hs1 : s.all scheme_char = true) (hs2 : s.map lowerChar = s)
    (hn0 : n ≠ []) (hn1 : n.all netlocChar = true) (hnb : bracketOk n = true)
    (hcn : n.all cleanChar = true) :
    urlparse (s ++ str "://" ++ n) [] = some ⟨s, n, [], [], [], []⟩ := by
  have hdom : s ++ str "://" ++ n = urlunsplit s n [] [] [] := by
    rw [urlunsplit_eq_form s n [] [] [] hs0 hn0]
    have h1 : ensuredPath [] = [] := rfl
    have h2 : optPre '?' [] = [] := rfl
    have h3 : optPre '#' [] = [] := rfl
    rw [h1, h2, h3]
    have : str "://" = [':', '/', '/'] := rfl
    rw [this]
    simp
  have hsp := urlsplit_unsplit s n [] [] [] hs0 hs1 hs2 hn0 hn1 hnb hcn
    (by rfl) (by rfl) (by rfl)
  have hred : (⟨s, n,
      (splitQm (splitHash (ensuredPath [] ++ optPre '?' [] ++ optPre '#' [])).1).1,
      (splitQm (splitHash (ensuredPath [] ++ optPre '?' [] ++ optPre '#' [])).1).2,
      (splitHash (ensuredPath [] ++ optPre '?' [] ++ optPre '#' [])).2⟩ : SplitURL) =
      ⟨s, n, [], [], []⟩ := rfl
  rw [hred] at hsp
  rw [hdom]
  have hg : (uses_params.contains (⟨s, n, [], [], []⟩ : SplitURL).scheme &&
      (⟨s, n, [], [], []⟩ : SplitURL).path.contains ';') = false := by
    dsimp only
    rw [Bool.and_comm]
    rfl
  have := urlparse_intro_plain (urlunsplit s n [] [] []) [] ⟨s, n, [], [], []⟩ hsp hg
  exact this

/-- Validity of a scheme string for the purposes of the claims: nonempty,
scheme chars, already lowercase, and a member of the relevant scheme lists
of `urllib.parse` (true of `http` and `https` in particular). -/
def schemeOK (s : Str) : Bool :=
  !s.isEmpty && s.all scheme_char && (s.map lowerChar == s) &&
  uses_relative.contains s && uses_netloc.contains s && uses_params.contains s

/-- A parsed page URL is well-formed in the sense of spec section 6:
a valid scheme and a nonempty host. -/
def pageOkB (b : ParseURL) : Bool := schemeOK b.scheme && !b.netloc.isEmpty

theorem schemeOK_elim (s : Str) (h : schemeOK s = true) :
    s ≠ [] ∧ s.all scheme_char = true ∧ s.map lowerChar = s ∧
    s ∈ uses_relative ∧ s ∈ uses_netloc ∧ s ∈ uses_params := by
  unfold schemeOK at h
  simp only [Bool.and_eq_true] at h
  obtain ⟨⟨⟨⟨⟨h1, h2⟩, h3⟩, h4⟩, h5⟩, h6⟩ := h
  exact ⟨by simpa using h1, h2, by simpa using h3, by simpa using h4,
         by simpa using h5, by simpa using h6⟩

theorem pageOkB_elim (b : ParseURL) (h : pageOkB b = true) :
    schemeOK b.scheme = true ∧ b.netloc ≠ [] := by
  unfold pageOkB at h
  rw [Bool.and_eq_true] at h
  exact ⟨h.1, by simpa using h.2⟩

/-! ### Membership through the `urljoin` path machinery -/

theorem mem_filterMiddle (l : List Str) (s : Str) (h : s ∈ filterMiddle l) : s ∈ l := by
  unfold filterMiddle at h
  cases l with
  | nil => simpa using h
  | cons a rest =>
    cases rest with
    | nil => simpa using h
    | cons b bs =>
      dsimp only at h
      cases hrev : (b :: bs).reverse with
      | nil => simp at hrev
      | cons last midrev =>
        rw [hrev] at h
        dsimp only at h
        rcases List.mem_cons.mp h with h | h
        · exact h ▸ List.mem_cons_self a (b :: bs)
        · rcases List.mem_append.mp h with h | h
          · have hm : s ∈ midrev.reverse := List.mem_of_mem_filter h
            apply List.mem_cons_of_mem
            have : midrev.reverse ++ [last] = b :: bs := by
              have h9 := congrArg List.reverse hrev
              simp at h9
              exact h9.symm
            rw [← this]
            exact List.mem_append_left _ hm
          · have : s = last := by simpa using h
            apply List.mem_cons_of_mem
            have h2 : midrev.reverse ++ [last] = b :: bs := by
              have h9 := congrArg List.reverse hrev
              simp at h9
              exact h9.symm
            rw [← h2, this]
            exact List.mem_append_right _ (by simp)

theorem mem_foldl_resolve (segs : List Str) :
    ∀ (acc : List Str) (s : Str),
      s ∈ segs.foldl
        (fun acc seg =>
          if seg = str ".." then acc.dropLast
          else if seg = str "." then acc
          else acc ++ [seg])
        acc →
      s ∈ acc ∨ s ∈ segs := by
  induction segs with
  | nil => intro acc s h; exact Or.inl h
  | cons seg rest ih =>
    intro acc s h
    simp only [List.foldl_cons] at h
    rcases ih _ s h with h2 | h2
    · by_cases h3 : seg = str ".."
      · rw [if_pos h3] at h2
        exact Or.inl ((List.dropLast_sublist acc).subset h2)
      · rw [if_neg h3] at h2
        by_cases h4 : seg = str "."
        · rw [if_pos h4] at h2
          exact Or.inl h2
        · rw [if_neg h4] at h2
          rcases List.mem_append.mp h2 with h5 | h5
          · exact Or.inl h5
          · right
            have : s = seg := by simpa using h5
            rw [this]
            exact List.mem_cons_self seg rest
    · exact Or.inr (List.mem_cons_of_mem seg h2)

theorem mem_resolveLoop (segs : List Str) (s : Str) (h : s ∈ resolveLoop segs) :
    s ∈ segs := by
  unfold resolveLoop at h
  rcases mem_foldl_resolve segs [] s h with h2 | h2
  · simp at h2
  · exact h2

/-- Characters of a joined resolved segment list, when each segment's
characters come from `P`, are `/` or characters of `P`. -/
theorem joinOn_clean_of_segments (segs : List Str) (P : Str)
    (hsub : ∀ t ∈ segs, ∀ x ∈ t, x ∈ P) (hP : P.all cleanChar = true) :
    (joinOn '/' segs).all cleanChar = true := by
  rw [List.all_eq_true]
  intro x hx
  rcases mem_joinOn '/' segs x hx with h | ⟨t, ht, hxt⟩
  · rw [h]; decide
  · rw [List.all_eq_true] at hP
    exact hP x (hsub t ht x hxt)

set_option maxHeartbeats 2000000 in
/-- When the link parse carries the base scheme and no netloc, `urljoinCore`
against a bare `scheme://netloc` base produces a URL that re-parses with
that scheme and netloc. -/
theorem urljoinCore_netloc_branch (s n : Str) (u2 : ParseURL) (link : Str)
    (hs0 : s ≠ []) (hs1 : s.all scheme_char = true) (hs2 : s.map lowerChar = s)
    (hsrel : s ∈ uses_relative) (hsnet : s ∈ uses_netloc)
    (hn0 : n ≠ []) (hn1 : n.all netlocChar = true)
    (hnb : bracketOk n = true) (hcn : n.all cleanChar = true)
    (hsch : u2.scheme = s) (hnl : u2.netloc = [])
    (hcp : u2.path.all cleanChar = true) (hcpar : u2.params.all cleanChar = true)
    (hcq : u2.query.all cleanChar = true) (hcf : u2.fragment.all cleanChar = true) :
    ∃ r : SplitURL,
      urlsplit (urljoinCore ⟨s, n, [], [], [], []⟩ u2 link) [] = some r ∧
      r.scheme = s ∧ r.netloc = n := by
  obtain ⟨us, unl, up, upar, uq, uf⟩ := u2
  dsimp only at hsch hnl hcp hcpar hcq hcf
  rcases hsch.symm with rfl
  subst hnl
  have key : ∀ (PP Q : Str), PP.all cleanChar = true → Q.all cleanChar = true →
      ∃ r : SplitURL, urlsplit (urlunsplit s n PP Q uf) [] = some r ∧
        r.scheme = s ∧ r.netloc = n := by
    intro PP Q hPP hQ
    exact ⟨_, urlsplit_unsplit s n PP Q uf hs0 hs1 hs2 hn0 hn1 hnb hcn hPP hQ hcf,
           rfl, rfl⟩
  unfold urljoinCore
  rw [if_neg ?hc1]
  case hc1 =>
    dsimp only
    rintro (h | h)
    · exact h rfl
    · exact h hsrel
  rw [if_neg ?hc2]
  case hc2 =>
    dsimp only
    rintro ⟨_, h⟩
    exact h rfl
  dsimp only
  rw [if_pos hsnet]
  by_cases hpe : up = [] ∧ upar = []
  · rw [if_pos hpe]
    have hq' : (if uq = [] then ([] : Str) else uq).all cleanChar = true := by
      by_cases h : uq = []
      · rw [if_pos h]; rfl
      · rw [if_neg h]; exact hcq
    exact key [] (if uq = [] then [] else uq) rfl hq'
  · rw [if_neg hpe]
    have hseg : ∀ t ∈ (if List.take 1 up = ['/'] then splitOnChar '/' up
        else filterMiddle
          ((if (splitOnChar '/' ([] : Str)).getLast? ≠ some [] then
              (splitOnChar '/' ([] : Str)).dropLast
            else splitOnChar '/' ([] : Str)) ++ splitOnChar '/' up)),
        ∀ x ∈ t, x ∈ up := by
      by_cases habs : List.take 1 up = ['/']
      · rw [if_pos habs]
        intro t ht x hx
        exact mem_splitOnChar_mem '/' up t ht x hx
      · rw [if_neg habs]
        intro t ht x hx
        have hbp : (if (splitOnChar '/' ([] : Str)).getLast? ≠ some [] then
            (splitOnChar '/' ([] : Str)).dropLast
          else splitOnChar '/' ([] : Str)) = [([] : Str)] := by
          rw [if_neg (by simp [splitOnChar])]
          rfl
        rw [hbp] at ht
        have ht2 := mem_filterMiddle _ t ht
        rcases List.mem_cons.mp ht2 with h | h
        · rw [h] at hx; simp at hx
        · exact mem_splitOnChar_mem '/' up t h x hx
    generalize hSEG : (if List.take 1 up = ['/'] then splitOnChar '/' up
        else filterMiddle
          ((if (splitOnChar '/' ([] : Str)).getLast? ≠ some [] then
              (splitOnChar '/' ([] : Str)).dropLast
            else splitOnChar '/' ([] : Str)) ++ splitOnChar '/' up)) = SEG at hseg ⊢
    have hres : ∀ t ∈ (if SEG.getLast? = some (str "..") ∨ SEG.getLast? = some (str ".")
        then resolveLoop SEG ++ [[]] else resolveLoop SEG), ∀ x ∈ t, x ∈ up := by
      intro t ht x hx
      by_cases hdots : SEG.getLast? = some (str "..") ∨ SEG.getLast? = some (str ".")
      · rw [if_pos hdots] at ht
        rcases List.mem_append.mp ht with h | h
        · exact hseg t (mem_resolveLoop SEG t h) x hx
        · have : t = [] := by simpa using h
          rw [this] at hx
          simp at hx
      · rw [if_neg hdots] at ht
        exact hseg t (mem_resolveLoop SEG t ht) x hx
    have hjoin : (joinOn '/'
        (if SEG.getLast? = some (str "..") ∨ SEG.getLast? = some (str ".")
         then resolveLoop SEG ++ [[]] else resolveLoop SEG)).all cleanChar = true :=
      joinOn_clean_of_segments _ up hres hcp
    have hPP : (if upar = [] then
          joinOn '/' (if SEG.getLast? = some (str "..") ∨ SEG.getLast? = some (str ".")
            then resolveLoop SEG ++ [[]] else resolveLoop SEG)
        else joinOn '/' (if SEG.getLast? = some (str "..") ∨ SEG.getLast? = some (str ".")
            then resolveLoop SEG ++ [[]] else resolveLoop SEG) ++ ';' :: upar).all
        cleanChar = true := by
      by_cases h : upar = []
      · rw [if_pos h]; exact hjoin
      · rw [if_neg h]
        simp only [List.all_append, List.all_cons, Bool.and_eq_true]
        exact ⟨hjoin, by decide, hcpar⟩
    have hun : urlunparse ⟨s, n,
        joinOn '/' (if SEG.getLast? = some (str "..") ∨ SEG.getLast? = some (str ".")
          then resolveLoop SEG ++ [[]] else resolveLoop SEG), upar, uq, uf⟩ =
        urlunsplit s n
          (if upar = [] then
            joinOn '/' (if SEG.getLast? = some (str "..") ∨ SEG.getLast? = some (str ".")
              then resolveLoop SEG ++ [[]] else resolveLoop SEG)
          else joinOn '/' (if SEG.getLast? = some (str "..") ∨ SEG.getLast? = some (str ".")
              then resolveLoop SEG ++ [[]] else resolveLoop SEG) ++ ';' :: upar)
          uq uf := by
      unfold urlunparse
      dsimp only
      by_cases h : upar = []
      · rw [if_pos h]
        rw [if_neg (by simp [h])]
      · rw [if_neg h]
        rw [if_pos (by simp [h, List.isEmpty_eq_false])]
    rw [hun]
    exact key _ uq hPP hcq

theorem urlsplit_of_urlparse (url d : Str) (u : ParseURL)
    (h : urlparse url d = some u) :
    ∃ b : SplitURL, urlsplit url d = some b ∧ b.scheme = u.scheme ∧
      b.netloc = u.netloc := by
  obtain ⟨b, hb, hu⟩ := urlparse_some_elim url d u h
  rcases hu with ⟨_, hu⟩ | ⟨_, hu⟩ <;> exact ⟨b, hb, by rw [hu], by rw [hu]⟩

theorem urlsplitTotal_scheme_found (url : Str)
    (h : (urlsplitTotal url []).scheme ≠ []) (d : Str) :
    urlsplitTotal url d = urlsplitTotal url [] := by
  cases hs : (schemeSplit (sanitize url)).1 with
  | some s0 => rw [urlsplitTotal_def url d, urlsplitTotal_def url [], hs]
  | none =>
    exfalso
    apply h
    rw [urlsplitTotal_def, hs]
    rfl

theorem urlparse_found_default (url d : Str) (u : ParseURL)
    (h : urlparse url [] = some u) (hne : u.scheme ≠ []) :
    urlparse url d = some u := by
  obtain ⟨b, hb, hbs, _⟩ := urlsplit_of_urlparse url [] u h
  obtain ⟨hbt, _⟩ := (urlsplit_eq_some_iff url [] b).mp hb
  have hfound : (urlsplitTotal url []).scheme ≠ [] := by
    rw [hbt, hbs]; exact hne
  have hteq : urlsplitTotal url d = urlsplitTotal url [] :=
    urlsplitTotal_scheme_found url hfound d
  have hspliteq : urlsplit url d = urlsplit url [] := by
    unfold urlsplit
    rw [hteq]
  have : urlparse url d = urlparse url [] := by
    unfold urlparse
    rw [hspliteq]
  rw [this]
  exact h

/-- `urljoin` of a link with no netloc against the page's
`scheme://netloc` base: the result exists and either is the link itself
(when the link carries a foreign scheme) or re-parses with the base's
scheme and netloc. -/
theorem urljoin_domain (s n link : Str) (u : ParseURL)
    (hsOK : schemeOK s = true)
    (hn0 : n ≠ []) (hn1 : n.all netlocChar = true)
    (hnb : bracketOk n = true) (hcn : n.all cleanChar = true)
    (hu : urlparse link [] = some u) (hunl : u.netloc = []) :
    ∃ res : Str, urljoin (s ++ str "://" ++ n) link = some res ∧
      ((res = link ∧ u.scheme ≠ []) ∨
       ∃ r : SplitURL, urlsplit res [] = some r ∧ r.scheme = s ∧ r.netloc = n) := by
  obtain ⟨hs0, hs1, hs2, hsrel, hsnet, hspar⟩ := schemeOK_elim s hsOK
  have hsclean : s.all cleanChar = true := (all_scheme_char_facts s hs1).2
  have hdom := urlparse_domain s n hs0 hs1 hs2 hn0 hn1 hnb hcn
  have hdomne : s ++ str "://" ++ n ≠ [] := by
    intro he
    rw [List.append_eq_nil] at he
    exact hn0 he.2
  by_cases hlink : link = []
  · refine ⟨s ++ str "://" ++ n, ?_, ?_⟩
    · unfold urljoin
      rw [if_neg hdomne, if_pos hlink]
    · right
      obtain ⟨b, hb, hbs, hbn⟩ := urlsplit_of_urlparse _ [] _ hdom
      exact ⟨b, hb, by rw [hbs], by rw [hbn]⟩
  · have hjoin : ∀ u2 : ParseURL, urlparse link s = some u2 →
        urljoin (s ++ str "://" ++ n) link =
          some (urljoinCore ⟨s, n, [], [], [], []⟩ u2 link) := by
      intro u2 hu2
      unfold urljoin
      rw [if_neg hdomne, if_neg hlink]
      rw [hdom]
      simp only [Option.bind_eq_bind, Option.some_bind]
      rw [hu2]
      rfl
    obtain ⟨wfn, wfb, wfnc, wfpc, wfparc, wfqc, wffc⟩ := urlparse_wf link [] u hu
    by_cases hus : u.scheme = []
    · have hu2 := urlparse_change_default link s u hu hus hsclean hspar
      rw [hunl] at hu2
      obtain ⟨r, hr, hrs, hrn⟩ := urljoinCore_netloc_branch s n
        ⟨s, [], u.path, u.params, u.query, u.fragment⟩ link
        hs0 hs1 hs2 hsrel hsnet hn0 hn1 hnb hcn rfl rfl wfpc wfparc wfqc wffc
      exact ⟨_, hjoin _ hu2, Or.inr ⟨r, hr, hrs, hrn⟩⟩
    · have hu2 : urlparse link s = some u := urlparse_found_default link s u hu hus
      by_cases hmix : u.scheme = s
      · obtain ⟨r, hr, hrs, hrn⟩ := urljoinCore_netloc_branch s n u link
          hs0 hs1 hs2 hsrel hsnet hn0 hn1 hnb hcn hmix hunl wfpc wfparc wfqc wffc
        exact ⟨_, hjoin _ hu2, Or.inr ⟨r, hr, hrs, hrn⟩⟩
      · have hcore : urljoinCore ⟨s, n, [], [], [], []⟩ u link = link := by
          unfold urljoinCore
          rw [if_pos (Or.inl hmix)]
        refine ⟨link, ?_, Or.inl ⟨rfl, hus⟩⟩
        rw [hjoin u hu2, hcore]

theorem get_full_link_eq (link page_url : Str) :
    get_full_link link page_url =
      (urlparse page_url []).bind (fun p =>
        (urlparse link []).bind (fun l =>
          if l.netloc = [] then
            urljoin (p.scheme ++ str "://" ++ p.netloc) link
          else some link)) := rfl

theorem get_full_link_unchanged (link page_url : Str) (b u : ParseURL)
    (hb : urlparse page_url [] = some b) (hu : urlparse link [] = some u)
    (hne : u.netloc ≠ []) :
    get_full_link link page_url = some link := by
  rw [get_full_link_eq, hb]
  simp only [Option.bind_eq_bind, Option.some_bind]
  rw [hu]
  simp only [Option.some_bind]
  rw [if_neg hne]

theorem get_full_link_join (link page_url : Str) (b u : ParseURL)
    (hb : urlparse page_url [] = some b) (hu : urlparse link [] = some u)
    (hnl : u.netloc = []) :
    get_full_link link page_url = urljoin (b.scheme ++ str "://" ++ b.netloc) link := by
  rw [get_full_link_eq, hb]
  simp only [Option.bind_eq_bind, Option.some_bind]
  rw [hu]
  simp only [Option.some_bind]
  rw [if_pos hnl]

/-- Whenever the page URL is well-formed and both URLs parse,
`get_full_link` succeeds and its result parses. -/
theorem get_full_link_wf (link page_url : Str) (b u : ParseURL)
    (hb : urlparse page_url [] = some b) (hok : pageOkB b = true)
    (hu : urlparse link [] = some u) :
    ∃ res : Str, get_full_link link page_url = some res ∧
      urlparse res [] ≠ none := by
  obtain ⟨hsOK, hn0⟩ := pageOkB_elim b hok
  obtain ⟨wfn, wfb, wfnc, _, _, _, _⟩ := urlparse_wf page_url [] b hb
  by_cases hnl : u.netloc = []
  · obtain ⟨res, hjr, hcase⟩ :=
      urljoin_domain b.scheme b.netloc link u hsOK hn0 wfn wfb wfnc hu hnl
    refine ⟨res, ?_, ?_⟩
    · rw [get_full_link_join link page_url b u hb hu hnl]
      exact hjr
    · rcases hcase with ⟨rfl, _⟩ | ⟨r, hr, _, _⟩
      · rw [hu]; simp
      · rw [Ne, urlparse_none_iff]
        rw [hr]
        simp
  · refine ⟨link, get_full_link_unchanged link page_url b u hb hu hnl, ?_⟩
    rw [hu]; simp

/-- When the link has neither scheme nor netloc, `get_full_link` resolves it
to a URL carrying the page's scheme and netloc. -/
theorem get_full_link_resolves (link page_url : Str) (b u : ParseURL)
    (hb : urlparse page_url [] = some b) (hok : pageOkB b = true)
    (hu : urlparse link [] = some u) (hus : u.scheme = []) (hnl : u.netloc = []) :
    ∃ (res : Str) (r : SplitURL), get_full_link link page_url = some res ∧
      urlsplit res [] = some r ∧ r.scheme = b.scheme ∧ r.netloc = b.netloc := by
  obtain ⟨hsOK, hn0⟩ := pageOkB_elim b hok
  obtain ⟨wfn, wfb, wfnc, _, _, _, _⟩ := urlparse_wf page_url [] b hb
  obtain ⟨res, hjr, hcase⟩ :=
    urljoin_domain b.scheme b.netloc link u hsOK hn0 wfn wfb wfnc hu hnl
  rcases hcase with ⟨_, hne⟩ | ⟨r, hr, hrs, hrn⟩
  · exact absurd hus hne
  · refine ⟨res, r, ?_, hr, hrs, hrn⟩
    rw [get_full_link_join link page_url b u hb hu hnl]
    exact hjr

/-! ### `is_local_link` and `create_resource_name` -/

theorem is_local_link_some (link page_url : Str) (l p : ParseURL)
    (hl : urlparse link [] = some l) (hp : urlparse page_url [] = some p) :
    is_local_link link page_url = some (l.netloc == p.netloc) := by
  unfold is_local_link
  rw [hl]
  simp only [Option.bind_eq_bind, Option.some_bind]
  rw [hp]
  rfl

theorem is_local_link_none_elim (link page_url : Str)
    (h : is_local_link link page_url ≠ none) :
    urlparse link [] ≠ none ∧ urlparse page_url [] ≠ none := by
  unfold is_local_link at h
  cases hl : urlparse link [] with
  | none => rw [hl] at h; simp at h
  | some l =>
    rw [hl] at h
    simp only [Option.bind_eq_bind, Option.some_bind] at h
    cases hp : urlparse page_url [] with
    | none => rw [hp] at h; simp at h
    | some p => simp

theorem parse_url_eq (l : Str) :
    parse_url l = (urlsplit l []).bind (fun u =>
      some ⟨hyphenize u.netloc,
            hyphenize (match (splitExt u.path).1 with | '/' :: r => r | r => r),
            (splitExt u.path).2⟩) := rfl

theorem create_resource_name_some (l : Str) (b : SplitURL)
    (h : urlsplit l [] = some b) :
    create_resource_name l = some
      (hyphenize b.netloc ++ '-' ::
        (hyphenize (match (splitExt b.path).1 with | '/' :: r => r | r => r) ++
         '.' :: (if (splitExt b.path).2 = [] then HTML_EXT else (splitExt b.path).2))) := by
  unfold create_resource_name
  rw [parse_url_eq, h]
  rfl

theorem create_resource_name_isSome (l : Str) (h : urlparse l [] ≠ none) :
    create_resource_name l ≠ none := by
  cases hs : urlsplit l [] with
  | none => exact absurd ((urlparse_none_iff l []).mpr hs) h
  | some b =>
    rw [create_resource_name_some l b hs]
    simp

/-! ### The per-element step of the page transformer -/

theorem processElem_eq (sep : Char) (dir_name page_url attr : Str) (e : Elem) :
    processElem sep dir_name page_url attr e =
      (getAttr e attr).bind (fun v =>
        (get_full_link v page_url).bind (fun link =>
          (is_local_link link page_url).bind (fun loc =>
            if loc then
              (create_resource_name link).bind (fun resource_name =>
                some (setAttr e attr (path_join sep dir_name resource_name),
                      [⟨link, resource_name⟩]))
            else some (e, [])))) := rfl

theorem processElem_local (sep : Char) (dir_name page_url attr : Str) (e : Elem)
    (v link nm : Str)
    (hv : getAttr e attr = some v) (hl : get_full_link v page_url = some link)
    (hloc : is_local_link link page_url = some true)
    (hn : create_resource_name link = some nm) :
    processElem sep dir_name page_url attr e =
      some (setAttr e attr (path_join sep dir_name nm), [⟨link, nm⟩]) := by
  rw [processElem_eq, hv]
  simp only [Option.bind_eq_bind, Option.some_bind]
  rw [hl]
  simp only [Option.some_bind]
  rw [hloc]
  simp only [Option.some_bind, if_true]
  rw [hn]
  rfl

theorem processElem_nonlocal (sep : Char) (dir_name page_url attr : Str) (e : Elem)
    (v link : Str)
    (hv : getAttr e attr = some v) (hl : get_full_link v page_url = some link)
    (hloc : is_local_link link page_url = some false) :
    processElem sep dir_name page_url attr e = some (e, []) := by
  rw [processElem_eq, hv]
  simp only [Option.bind_eq_bind, Option.some_bind]
  rw [hl]
  simp only [Option.some_bind]
  rw [hloc]
  simp only [Option.some_bind]
  rw [if_neg (by simp)]

theorem processElem_some_elim (sep : Char) (dir_name page_url attr : Str) (e : Elem)
    (out : Elem × List Resource)
    (h : processElem sep dir_name page_url attr e = some out) :
    ∃ v link : Str, getAttr e attr = some v ∧ get_full_link v page_url = some link ∧
      ((is_local_link link page_url = some true ∧
        ∃ nm, create_resource_name link = some nm ∧
          out = (setAttr e attr (path_join sep dir_name nm), [⟨link, nm⟩])) ∨
       (is_local_link link page_url = some false ∧ out = (e, []))) := by
  rw [processElem_eq] at h
  cases hv : getAttr e attr with
  | none => rw [hv] at h; simp at h
  | some v =>
    rw [hv] at h
    simp only [Option.bind_eq_bind, Option.some_bind] at h
    cases hl : get_full_link v page_url with
    | none => rw [hl] at h; simp at h
    | some link =>
      rw [hl] at h
      simp only [Option.some_bind] at h
      cases hloc : is_local_link link page_url with
      | none => rw [hloc] at h; simp at h
      | some loc =>
        rw [hloc] at h
        simp only [Option.some_bind] at h
        refine ⟨v, link, rfl, hl, ?_⟩
        cases loc with
        | true =>
          rw [if_pos rfl] at h
          cases hn : create_resource_name link with
          | none => rw [hn] at h; simp at h
          | some nm =>
            rw [hn] at h
            simp only [Option.some_bind, Option.some.injEq] at h
            exact Or.inl ⟨hloc, nm, rfl, h.symm⟩
        | false =>
          rw [if_neg (by simp)] at h
          simp only [Option.some.injEq] at h
          exact Or.inr ⟨hloc, h.symm⟩

theorem processElem_snd_sep (sep : Char) (dir_name page_url attr : Str) (e : Elem) :
    (processElem sep dir_name page_url attr e).map Prod.snd =
      (processElem '/' dir_name page_url attr e).map Prod.snd := by
  cases h : processElem sep dir_name page_url attr e with
  | none =>
    rw [processElem_eq] at h
    cases h2 : processElem '/' dir_name page_url attr e with
    | none => simp
    | some out =>
      obtain ⟨v, link, hv, hl, hrest⟩ :=
        processElem_some_elim '/' dir_name page_url attr e out h2
      exfalso
      rcases hrest with ⟨hloc, nm, hn, _⟩ | ⟨hloc, _⟩
      · rw [hv] at h
        simp only [Option.bind_eq_bind, Option.some_bind] at h
        rw [hl] at h
        simp only [Option.some_bind] at h
        rw [hloc] at h
        simp only [Option.some_bind, if_true] at h
        rw [hn] at h
        simp at h
      · rw [hv] at h
        simp only [Option.bind_eq_bind, Option.some_bind] at h
        rw [hl] at h
        simp only [Option.some_bind] at h
        rw [hloc] at h
        simp only [Option.some_bind] at h
        rw [if_neg (by simp)] at h
        simp at h
  | some out =>
    obtain ⟨v, link, hv, hl, hrest⟩ :=
      processElem_some_elim sep dir_name page_url attr e out h
    rcases hrest with ⟨hloc, nm, hn, ho⟩ | ⟨hloc, ho⟩
    · rw [processElem_local '/' dir_name page_url attr e v link nm hv hl hloc hn, ho]
      rfl
    · rw [processElem_nonlocal '/' dir_name page_url attr e v link hv hl hloc, ho]

theorem processElem_total (sep : Char) (dir_name attr page_url : Str) (e : Elem)
    (b : ParseURL) (hb : urlparse page_url [] = some b) (hok : pageOkB b = true)
    (v : Str) (hv : getAttr e attr = some v) (hvp : urlparse v [] ≠ none) :
    processElem sep dir_name page_url attr e ≠ none := by
  cases hu : urlparse v [] with
  | none => exact absurd hu hvp
  | some u =>
    obtain ⟨res, hres, hrp⟩ := get_full_link_wf v page_url b u hb hok hu
    cases hur : urlparse res [] with
    | none => exact absurd hur hrp
    | some ur =>
      have hloc := is_local_link_some res page_url ur b hur hb
      rw [processElem_eq, hv]
      simp only [Option.bind_eq_bind, Option.some_bind]
      rw [hres]
      simp only [Option.some_bind]
      rw [hloc]
      simp only [Option.some_bind]
      by_cases hb2 : (ur.netloc == b.netloc) = true
      · rw [hb2, if_pos rfl]
        cases hn : create_resource_name res with
        | none => exact absurd hn (create_resource_name_isSome res hrp)
        | some nm =>
          simp
      · rw [Bool.not_eq_true] at hb2
        rw [hb2, if_neg (by simp)]
        simp

/-! ### The per-kind pass of the page transformer -/

theorem setAttr_name (e : Elem) (a v : Str) : (setAttr e a v).name = e.name := rfl

theorem processElem_name (sep : Char) (dir_name page_url attr : Str) (e : Elem)
    (out : Elem × List Resource)
    (h : processElem sep dir_name page_url attr e = some out) :
    out.1.name = e.name := by
  obtain ⟨v, link, _, _, hrest⟩ :=
    processElem_some_elim sep dir_name page_url attr e out h
  rcases hrest with ⟨_, nm, _, ho⟩ | ⟨_, ho⟩ <;> rw [ho] <;> rfl

theorem processPass_cons (sep : Char) (d p t a : Str) (e : Elem) (rest : List Elem) :
    processPass sep d p t a (e :: rest) =
      if e.name = t then
        (processElem sep d p a e).bind (fun er =>
          (processPass sep d p t a rest).bind (fun rr =>
            some (er.1 :: rr.1, er.2 ++ rr.2)))
      else
        (processPass sep d p t a rest).bind (fun rr => some (e :: rr.1, rr.2)) := rfl

theorem processPass_total (sep : Char) (d p t a : Str) :
    ∀ doc : List Elem,
      (∀ e ∈ doc, e.name = t → processElem sep d p a e ≠ none) →
      processPass sep d p t a doc ≠ none := by
  intro doc
  induction doc with
  | nil => intro _ h; exact absurd h (by simp [processPass])
  | cons e rest ih =>
    intro hall
    rw [processPass_cons]
    have hrest : processPass sep d p t a rest ≠ none :=
      ih (fun x hx => hall x (List.mem_cons_of_mem e hx))
    by_cases hname : e.name = t
    · rw [if_pos hname]
      cases hpe : processElem sep d p a e with
      | none => exact absurd hpe (hall e (List.mem_cons_self e rest) hname)
      | some er =>
        cases hpp : processPass sep d p t a rest with
        | none => exact absurd hpp hrest
        | some rr => simp
    · rw [if_neg hname]
      cases hpp : processPass sep d p t a rest with
      | none => exact absurd hpp hrest
      | some rr => simp

/-- The pointwise relation between a document and its transform by one pass:
names are preserved and elements of other kinds are untouched. -/
def passRel (t : Str) (e e2 : Elem) : Prop :=
  e2.name = e.name ∧ (e.name ≠ t → e2 = e)

theorem processPass_shape (sep : Char) (d p t a : Str) :
    ∀ (doc : List Elem) (doc2 : List Elem) (rs : List Resource),
      processPass sep d p t a doc = some (doc2, rs) →
      List.Forall₂ (passRel t) doc doc2 := by
  intro doc
  induction doc with
  | nil =>
    intro doc2 rs h
    simp [processPass] at h
    rw [h.1]
    exact List.Forall₂.nil
  | cons e rest ih =>
    intro doc2 rs h
    rw [processPass_cons] at h
    by_cases hname : e.name = t
    · rw [if_pos hname] at h
      cases hpe : processElem sep d p a e with
      | none => rw [hpe] at h; simp at h
      | some er =>
        rw [hpe] at h
        simp only [Option.some_bind] at h
        cases hpp : processPass sep d p t a rest with
        | none => rw [hpp] at h; simp at h
        | some rr =>
          rw [hpp] at h
          simp only [Option.some_bind, Option.some.injEq, Prod.mk.injEq] at h
          rw [← h.1]
          exact List.Forall₂.cons
            ⟨processElem_name sep d p a e er hpe, fun hne => absurd hname hne⟩
            (ih rr.1 rr.2 (by rw [hpp]))
    · rw [if_neg hname] at h
      cases hpp : processPass sep d p t a rest with
      | none => rw [hpp] at h; simp at h
      | some rr =>
        rw [hpp] at h
        simp only [Option.some_bind, Option.some.injEq, Prod.mk.injEq] at h
        rw [← h.1]
        exact List.Forall₂.cons ⟨rfl, fun _ => rfl⟩ (ih rr.1 rr.2 (by rw [hpp]))

/-- Specification-side resource extraction for one element kind, in document
order (used only to state what `search_resources` computes). -/
def kindResList (dir page a : Str) : List Elem → Option (List Resource)
  | [] => some []
  | e :: rest =>
    ((processElem '/' dir page a e).map Prod.snd).bind (fun r =>
      (kindResList dir page a rest).map (fun rs => r ++ rs))

/-- Resources contributed by the elements of kind `t`, in document order. -/
def kindRes (dir page t a : Str) (doc : List Elem) : Option (List Resource) :=
  kindResList dir page a (doc.filter (fun e => e.name == t))

theorem processPass_kindRes (sep : Char) (d p t a : Str) :
    ∀ (doc : List Elem) (doc2 : List Elem) (rs : List Resource),
      processPass sep d p t a doc = some (doc2, rs) →
      kindRes d p t a doc = some rs := by
  intro doc
  induction doc with
  | nil =>
    intro doc2 rs h
    simp [processPass] at h
    rw [h.2]
    rfl
  | cons e rest ih =>
    intro doc2 rs h
    rw [processPass_cons] at h
    by_cases hname : e.name = t
    · rw [if_pos hname] at h
      cases hpe : processElem sep d p a e with
      | none => rw [hpe] at h; simp at h
      | some er =>
        rw [hpe] at h
        simp only [Option.some_bind] at h
        cases hpp : processPass sep d p t a rest with
        | none => rw [hpp] at h; simp at h
        | some rr =>
          rw [hpp] at h
          simp only [Option.some_bind, Option.some.injEq, Prod.mk.injEq] at h
          unfold kindRes
          rw [List.filter_cons_of_pos (by simp [hname])]
          unfold kindResList
          have hsnd : (processElem '/' d p a e).map Prod.snd = some er.2 := by
            rw [← processElem_snd_sep sep d p a e, hpe]
            rfl
          rw [hsnd]
          simp only [Option.some_bind]
          have hk := ih rr.1 rr.2 (by rw [hpp])
          unfold kindRes at hk
          rw [hk]
          simp only [Option.map_some', Option.some.injEq]
          rw [← h.2]
    · rw [if_neg hname] at h
      cases hpp : processPass sep d p t a rest with
      | none => rw [hpp] at h; simp at h
      | some rr =>
        rw [hpp] at h
        simp only [Option.some_bind, Option.some.injEq, Prod.mk.injEq] at h
        unfold kindRes
        rw [List.filter_cons_of_neg (by simp [hname])]
        have hk := ih rr.1 rr.2 (by rw [hpp])
        unfold kindRes at hk
        rw [hk, ← h.2]

/-- A pass for one kind does not change which elements the other kinds see. -/
theorem filter_stable_of_passRel (t t2 : Str) (hne : t2 ≠ t) :
    ∀ (doc doc2 : List Elem), List.Forall₂ (passRel t) doc doc2 →
      doc2.filter (fun e => e.name == t2) = doc.filter (fun e => e.name == t2) := by
  intro doc doc2 hf
  induction hf with
  | nil => rfl
  | cons hr hrest ih =>
    rename_i e e2 es es2
    by_cases hm : e.name = t2
    · have he2 : e2 = e := hr.2 (by rw [hm]; exact hne)
      subst he2
      rw [List.filter_cons_of_pos (by simp [hm]),
          List.filter_cons_of_pos (by simp [hm]), ih]
    · have hm2 : ¬ e2.name = t2 := by rw [hr.1]; exact hm
      rw [List.filter_cons_of_neg (by simpa using hm2),
          List.filter_cons_of_neg (by simpa using hm), ih]

/-! ### `search_resources` as three passes -/

theorem search_some_elim (sep : Char) (doc : List Elem) (page : Str)
    (out : List Elem × List Resource)
    (h : search_resources_sep sep doc page = some out) :
    ∃ (dir : Str) (p1 p2 p3 : List Elem × List Resource),
      get_dir_name page = some dir ∧
      processPass sep dir page (str "img") (str "src") doc = some p1 ∧
      processPass sep dir page (str "link") (str "href") p1.1 = some p2 ∧
      processPass sep dir page (str "script") (str "src") p2.1 = some p3 ∧
      out = (p3.1, p1.2 ++ p2.2 ++ p3.2) := by
  unfold search_resources_sep TAGS_LINK_ATTRIBUTES at h
  cases hdir : get_dir_name page with
  | none => rw [hdir] at h; simp at h
  | some dir =>
    rw [hdir] at h
    simp only [Option.bind_eq_bind, Option.pure_def, Option.some_bind, List.foldlM] at h
    cases h1 : processPass sep dir page (str "img") (str "src") doc with
    | none => rw [h1] at h; simp at h
    | some p1 =>
      rw [h1] at h
      simp only [Option.pure_def, Option.some_bind] at h
      cases h2 : processPass sep dir page (str "link") (str "href") p1.1 with
      | none => rw [h2] at h; simp at h
      | some p2 =>
        rw [h2] at h
        simp only [Option.pure_def, Option.some_bind] at h
        cases h3 : processPass sep dir page (str "script") (str "src") p2.1 with
        | none => rw [h3] at h; simp at h
        | some p3 =>
          rw [h3] at h
          simp only [Option.pure_def, Option.some_bind, Option.some.injEq] at h
          refine ⟨dir, p1, p2, p3, rfl, h1, h2, h3, ?_⟩
          rw [← h]
          simp [List.append_assoc]

theorem search_some_intro (sep : Char) (doc : List Elem) (page : Str)
    (dir : Str) (p1 p2 p3 : List Elem × List Resource)
    (hdir : get_dir_name page = some dir)
    (h1 : processPass sep dir page (str "img") (str "src") doc = some p1)
    (h2 : processPass sep dir page (str "link") (str "href") p1.1 = some p2)
    (h3 : processPass sep dir page (str "script") (str "src") p2.1 = some p3) :
    search_resources_sep sep doc page = some (p3.1, p1.2 ++ p2.2 ++ p3.2) := by
  unfold search_resources_sep TAGS_LINK_ATTRIBUTES
  rw [hdir]
  simp only [Option.bind_eq_bind, Option.pure_def, Option.some_bind, List.foldlM]
  rw [h1]
  simp only [Option.pure_def, Option.some_bind]
  rw [h2]
  simp only [Option.pure_def, Option.some_bind]
  rw [h3]
  simp only [Option.pure_def, Option.some_bind, Option.some.injEq]
  simp [List.append_assoc]

/-! ## The claims -/

/-- C6: `is_local_link` returns true iff the resolved link's netloc (host
string as emitted by the URL parser) equals the page URL's netloc under
exact, case-sensitive string comparison — no normalization of default ports
or trailing dots is performed anywhere — and in particular a link on a
subdomain of the page's host is classified remote. -/
theorem claim_C6 :
    (∀ (link page_url : Str) (l p : ParseURL),
        urlparse link [] = some l → urlparse page_url [] = some p →
        (is_local_link link page_url = some true ↔ l.netloc = p.netloc)) ∧
    is_local_link (str "https://sub.example.com/a") (str "https://example.com/") =
      some false ∧
    is_local_link (str "https://example.com:80/a") (str "https://example.com/") =
      some false ∧
    is_local_link (str "https://EXample.com/a") (str "https://example.com/") =
      some false := by
  refine ⟨?_, by decide, by decide, by decide⟩
  intro link page_url l p hl hp
  rw [is_local_link_some link page_url l p hl hp]
  constructor
  · intro h
    injection h with h2
    exact eq_of_beq h2
  · intro h
    rw [h]
    simp

/-- Witness for C6 at a concrete input: same exact host on both sides is
classified local. -/
theorem claim_C6_witness :
    is_local_link (str "http://example.com/x") (str "https://example.com/") =
      some true :=
  (claim_C6.1 (str "http://example.com/x") (str "https://example.com/")
      ⟨str "http", str "example.com", str "/x", [], [], []⟩
      ⟨str "https", str "example.com", str "/", [], [], []⟩
      (by decide) (by decide)).mpr rfl

/-- C8: a raw link that already carries a network location is returned
unchanged by `get_full_link`, for any page URL that parses (per spec
section 6 the page URL is a well-formed absolute URL): resolving an
already-absolute link is the identity. -/
theorem claim_C8 (link page_url : Str) (p u : ParseURL)
    (hp : urlparse page_url [] = some p) (hu : urlparse link [] = some u)
    (hne : u.netloc ≠ []) :
    get_full_link link page_url = some link :=
  get_full_link_unchanged link page_url p u hp hu hne

/-- Witness for C8 at a concrete input. -/
theorem claim_C8_witness :
    get_full_link (str "https://cdn.example.org/lib.js")
      (str "https://example.com/a") = some (str "https://cdn.example.org/lib.js") :=
  claim_C8 (str "https://cdn.example.org/lib.js") (str "https://example.com/a")
    ⟨str "https", str "example.com", str "/a", [], [], []⟩
    ⟨str "https", str "cdn.example.org", str "/lib.js", [], [], []⟩
    (by decide) (by decide) (by decide)

/-- Counterexample to C4: an HTTP-level failure (a 404 response for the
second resource) does not abort `save_resources` — the error body is
written like any other content and the loop completes successfully,
because the response status is never inspected.  Only raised
transport-level errors abort. -/
theorem claim_C4_counterexample :
    save_resources
      (fun l => if l == str "https://example.com/b.png" then
                  FetchOutcome.resp 404 [52, 53]
                else FetchOutcome.resp 200 [1, 2])
      (fun _ => true) (str "dir")
      [⟨str "https://example.com/a.png", str "a.png"⟩,
       ⟨str "https://example.com/b.png", str "b.png"⟩] =
      ⟨[str "https://example.com/a.png", str "https://example.com/b.png"],
       [(str "dir/a.png", [1, 2]), (str "dir/b.png", [52, 53])], true⟩ := by
  decide

/-- C4 amended: `save_resources` processes resources strictly in list
order; a raised transport-level fetch error or a failed write aborts the
whole operation (no later resource is fetched or written and no success
status results); but HTTP-level failures are not detected — any returned
response body is written and processing continues. -/
theorem claim_C4_amended :
    (∀ (fetch : Str → FetchOutcome) (writeOk : Str → Bool) (dir : Str)
        (rs : List Resource),
        (∀ r ∈ rs, fetch r.link ≠ FetchOutcome.raiseErr ∧
          writeOk (path_join '/' dir r.rname) = true) →
        save_resources fetch writeOk dir rs =
          ⟨rs.map (fun r => r.link),
           rs.map (fun r => (path_join '/' dir r.rname, respContent (fetch r.link))),
           true⟩) ∧
    (∀ (fetch : Str → FetchOutcome) (writeOk : Str → Bool) (dir : Str)
        (pre : List Resource) (r : Resource) (post : List Resource),
        (∀ x ∈ pre, fetch x.link ≠ FetchOutcome.raiseErr ∧
          writeOk (path_join '/' dir x.rname) = true) →
        fetch r.link = FetchOutcome.raiseErr →
        save_resources fetch writeOk dir (pre ++ r :: post) =
          ⟨pre.map (fun x => x.link) ++ [r.link],
           pre.map (fun x => (path_join '/' dir x.rname, respContent (fetch x.link))),
           false⟩) ∧
    (∀ (fetch : Str → FetchOutcome) (writeOk : Str → Bool) (dir : Str)
        (pre : List Resource) (r : Resource) (post : List Resource),
        (∀ x ∈ pre, fetch x.link ≠ FetchOutcome.raiseErr ∧
          writeOk (path_join '/' dir x.rname) = true) →
        fetch r.link ≠ FetchOutcome.raiseErr →
        writeOk (path_join '/' dir r.rname) = false →
        save_resources fetch writeOk dir (pre ++ r :: post) =
          ⟨pre.map (fun x => x.link) ++ [r.link],
           pre.map (fun x => (path_join '/' dir x.rname, respContent (fetch x.link))),
           false⟩) := by
  refine ⟨?_, ?_, ?_⟩
  · intro fetch writeOk dir rs
    induction rs with
    | nil => intro _; rfl
    | cons r rest ih =>
      intro hall
      obtain ⟨hfr, hwr⟩ := hall r (List.mem_cons_self r rest)
      cases hf : fetch r.link with
      | raiseErr => exact absurd hf hfr
      | resp st c =>
        unfold save_resources
        dsimp only
        rw [hf]
        dsimp only
        rw [if_pos hwr, ih (fun x hx => hall x (List.mem_cons_of_mem r hx))]
        simp [hf, respContent]
  · intro fetch writeOk dir pre
    induction pre with
    | nil =>
      intro r post _ hraise
      rw [List.nil_append]
      unfold save_resources
      dsimp only
      rw [hraise]
      simp
    | cons x xs ih =>
      intro r post hall hraise
      obtain ⟨hfx, hwx⟩ := hall x (List.mem_cons_self x xs)
      cases hf : fetch x.link with
      | raiseErr => exact absurd hf hfx
      | resp st c =>
        rw [List.cons_append]
        unfold save_resources
        dsimp only
        rw [hf]
        dsimp only
        rw [if_pos hwx,
            ih r post (fun y hy => hall y (List.mem_cons_of_mem x hy)) hraise]
        simp [hf, respContent]
  · intro fetch writeOk dir pre
    induction pre with
    | nil =>
      intro r post _ hraise hwfail
      cases hf : fetch r.link with
      | raiseErr => exact absurd hf hraise
      | resp st c =>
        rw [List.nil_append]
        unfold save_resources
        dsimp only
        rw [hf]
        dsimp only
        rw [if_neg (by rw [hwfail]; simp)]
        simp
    | cons x xs ih =>
      intro r post hall hraise hwfail
      obtain ⟨hfx, hwx⟩ := hall x (List.mem_cons_self x xs)
      cases hf : fetch x.link with
      | raiseErr => exact absurd hf hfx
      | resp st c =>
        rw [List.cons_append]
        unfold save_resources
        dsimp only
        rw [hf]
        dsimp only
        rw [if_pos hwx,
            ih r post (fun y hy => hall y (List.mem_cons_of_mem x hy)) hraise hwfail]
        simp [hf, respContent]

/-- Witness for C4 amended at concrete inputs: a transport error on the
very first resource aborts immediately. -/
theorem claim_C4_witness :
    save_resources (fun _ => FetchOutcome.raiseErr) (fun _ => true) (str "d")
      [⟨str "u", str "n"⟩] = ⟨[str "u"], [], false⟩ := by
  have h := claim_C4_amended.2.1 (fun _ => FetchOutcome.raiseErr) (fun _ => true)
    (str "d") [] ⟨str "u", str "n"⟩ [] (by simp) rfl
  simpa using h

/-- C7: the resource namer reuses a recognizable file extension from the
path (the name ends in `.<ext>`), defaults to the `html` extension
otherwise, and a link with no path segments beyond the host (a bare `/`
path) still produces a valid non-empty name with the default `.html`
extension. -/
theorem claim_C7 :
    (∀ (link : Str) (b : SplitURL) (nm : Str),
        urlsplit link [] = some b → create_resource_name link = some nm →
        nm ≠ [] ∧
        ((splitExt b.path).2 ≠ [] → ∃ p0, nm = p0 ++ '.' :: (splitExt b.path).2) ∧
        ((splitExt b.path).2 = [] → ∃ p0, nm = p0 ++ str ".html")) ∧
    create_resource_name (str "https://example.com/") =
      some (str "example-com-.html") := by
  constructor
  · intro link b nm hb hn
    rw [create_resource_name_some link b hb] at hn
    injection hn with hn
    refine ⟨?_, ?_, ?_⟩
    · rw [← hn]; simp
    · intro hne
      refine ⟨hyphenize b.netloc ++ '-' ::
        hyphenize (match (splitExt b.path).1 with | '/' :: r => r | r => r), ?_⟩
      rw [← hn, if_neg hne]
      simp
    · intro he
      refine ⟨hyphenize b.netloc ++ '-' ::
        hyphenize (match (splitExt b.path).1 with | '/' :: r => r | r => r), ?_⟩
      rw [← hn, he, if_pos rfl]
      have : str ".html" = '.' :: HTML_EXT := rfl
      rw [this]
      simp
  · decide

/-- Witness for C7 at a concrete input: a `.png` link keeps its extension
and yields a nonempty name. -/
theorem claim_C7_witness :
    str "example-com-images-logo.png" ≠ ([] : Str) :=
  (claim_C7.1 (str "https://example.com/images/logo.png")
    ⟨str "https", str "example.com", str "/images/logo.png", [], []⟩
    (str "example-com-images-logo.png") (by decide) (by decide)).1

/-! ### Resource-record invariants -/

theorem processElem_resource_inv (sep : Char) (d p a : Str) (e : Elem)
    (out : Elem × List Resource) (h : processElem sep d p a e = some out)
    (r : Resource) (hr : r ∈ out.2) :
    create_resource_name r.link = some r.rname ∧
    is_local_link r.link p = some true := by
  obtain ⟨v, link, _, _, hrest⟩ := processElem_some_elim sep d p a e out h
  rcases hrest with ⟨hloc, nm, hn, ho⟩ | ⟨_, ho⟩
  · rw [ho] at hr
    simp only [List.mem_singleton] at hr
    rw [hr]
    exact ⟨hn, hloc⟩
  · rw [ho] at hr
    simp at hr

theorem processPass_resource_inv (sep : Char) (d p t a : Str) :
    ∀ (doc : List Elem) (doc2 : List Elem) (rs : List Resource),
      processPass sep d p t a doc = some (doc2, rs) →
      ∀ r ∈ rs, create_resource_name r.link = some r.rname ∧
        is_local_link r.link p = some true := by
  intro doc
  induction doc with
  | nil =>
    intro doc2 rs h r hr
    simp [processPass] at h
    rw [h.2] at hr
    simp at hr
  | cons e rest ih =>
    intro doc2 rs h r hr
    rw [processPass_cons] at h
    by_cases hname : e.name = t
    · rw [if_pos hname] at h
      cases hpe : processElem sep d p a e with
      | none => rw [hpe] at h; simp at h
      | some er =>
        rw [hpe] at h
        simp only [Option.some_bind] at h
        cases hpp : processPass sep d p t a rest with
        | none => rw [hpp] at h; simp at h
        | some rr =>
          rw [hpp] at h
          simp only [Option.some_bind, Option.some.injEq, Prod.mk.injEq] at h
          rw [← h.2] at hr
          rcases List.mem_append.mp hr with h2 | h2
          · exact processElem_resource_inv sep d p a e er hpe r h2
          · exact ih rr.1 rr.2 (by rw [hpp]) r h2
    · rw [if_neg hname] at h
      cases hpp : processPass sep d p t a rest with
      | none => rw [hpp] at h; simp at h
      | some rr =>
        rw [hpp] at h
        simp only [Option.some_bind, Option.some.injEq, Prod.mk.injEq] at h
        rw [← h.2] at hr
        exact ih rr.1 rr.2 (by rw [hpp]) r hr

/-- C10: every resource record emitted by `search_resources` satisfies the
two invariants: its name is exactly `create_resource_name` of its link, and
its link is classified local against the page URL. -/
theorem claim_C10 (doc : List Elem) (page_url : Str)
    (out : List Elem × List Resource)
    (h : search_resources doc page_url = some out) (r : Resource) (hr : r ∈ out.2) :
    create_resource_name r.link = some r.rname ∧
    is_local_link r.link page_url = some true := by
  obtain ⟨dir, p1, p2, p3, _, h1, h2, h3, ho⟩ :=
    search_some_elim '/' doc page_url out h
  rw [ho] at hr
  rcases List.mem_append.mp hr with h4 | h4
  · rcases List.mem_append.mp h4 with h5 | h5
    · exact processPass_resource_inv '/' dir page_url (str "img") (str "src")
        doc p1.1 p1.2 (by rw [h1]) r h5
    · exact processPass_resource_inv '/' dir page_url (str "link") (str "href")
        p1.1 p2.1 p2.2 (by rw [h2]) r h5
  · exact processPass_resource_inv '/' dir page_url (str "script") (str "src")
      p2.1 p3.1 p3.2 (by rw [h3]) r h4

/-- Witness for C10 at a concrete input. -/
theorem claim_C10_witness :
    create_resource_name (str "https://example.com/a.png") =
        some (str "example-com-a.png") ∧
      is_local_link (str "https://example.com/a.png") (str "https://example.com/") =
        some true :=
  claim_C10 [⟨str "img", [(str "src", str "/a.png")]⟩] (str "https://example.com/")
    ([⟨str "img", [(str "src", str "example-com_files/example-com-a.png")]⟩],
     [⟨str "https://example.com/a.png", str "example-com-a.png"⟩])
    (by decide) ⟨str "https://example.com/a.png", str "example-com-a.png"⟩
    (by decide)

/-! ### Totality of the transform -/

theorem get_dir_name_some (page : Str) (u : SplitURL) (h : urlsplit page [] = some u) :
    get_dir_name page = some (hyphenize (u.netloc ++
      (match u.path.reverse with | '/' :: r => r.reverse | _ => u.path)) ++
      str "_files") := by
  unfold get_dir_name
  rw [h]
  rfl

theorem forall₂_mem_right {R : Elem → Elem → Prop} :
    ∀ (doc doc2 : List Elem), List.Forall₂ R doc doc2 →
      ∀ e2 ∈ doc2, ∃ e ∈ doc, R e e2 := by
  intro doc doc2 hf
  induction hf with
  | nil => intro e2 he2; simp at he2
  | cons hr hrest ih =>
    rename_i e e2 es es2
    intro x hx
    rcases List.mem_cons.mp hx with h | h
    · exact ⟨e, List.mem_cons_self e es, h ▸ hr⟩
    · obtain ⟨y, hy, hRy⟩ := ih x h
      exact ⟨y, List.mem_cons_of_mem e hy, hRy⟩

/-- Counterexample to C3: a matching element whose link attribute is
missing makes `search_resources` raise (`tag[link_attr]` is a `KeyError`),
instead of being skipped. -/
theorem claim_C3_counterexample :
    search_resources [⟨str "img", []⟩] (str "https://example.com/") = none := by
  decide

/-- C3 amended: for a well-formed page URL, `search_resources` terminates
without error provided every element of a matching tag kind carries its
link attribute (with a value whose netloc, if any, has balanced square
brackets — i.e. the value itself parses); malformed attribute values are
otherwise harmless, and non-local ones are left untouched.  A matching
element with the attribute missing, however, raises `KeyError` and aborts
the whole transform. -/
theorem claim_C3_amended (doc : List Elem) (page_url : Str) (b : ParseURL)
    (hb : urlparse page_url [] = some b) (hok : pageOkB b = true)
    (hattrs : ∀ e ∈ doc, ∀ ta ∈ TAGS_LINK_ATTRIBUTES, e.name = ta.1 →
      ∃ v, getAttr e ta.2 = some v ∧ urlparse v [] ≠ none) :
    search_resources doc page_url ≠ none := by
  obtain ⟨bs, hbs, _, _⟩ := urlsplit_of_urlparse page_url [] b hb
  have hdir := get_dir_name_some page_url bs hbs
  set dir := hyphenize (bs.netloc ++
    (match bs.path.reverse with | '/' :: r => r.reverse | _ => bs.path)) ++
    str "_files" with hdirdef
  have h1t : processPass '/' dir page_url (str "img") (str "src") doc ≠ none := by
    apply processPass_total
    intro e he hname
    obtain ⟨v, hv, hvp⟩ := hattrs e he (str "img", str "src")
      (by simp [TAGS_LINK_ATTRIBUTES]) hname
    exact processElem_total '/' dir (str "src") page_url e b hb hok v hv hvp
  cases hp1 : processPass '/' dir page_url (str "img") (str "src") doc with
  | none => exact absurd hp1 h1t
  | some p1 =>
  have hsh1 : List.Forall₂ (passRel (str "img")) doc p1.1 :=
    processPass_shape '/' dir page_url (str "img") (str "src") doc p1.1 p1.2
      (by rw [hp1])
  have hattrs2 : ∀ e2 ∈ p1.1, e2.name = str "link" →
      ∃ v, getAttr e2 (str "href") = some v ∧ urlparse v [] ≠ none := by
    intro e2 he2 hname
    obtain ⟨e, he, hrel⟩ := forall₂_mem_right doc p1.1 hsh1 e2 he2
    have hen : e.name = str "link" := by rw [← hrel.1]; exact hname
    have he2e : e2 = e := hrel.2 (by rw [hen]; decide)
    obtain ⟨v, hv, hvp⟩ := hattrs e he (str "link", str "href")
      (by simp [TAGS_LINK_ATTRIBUTES]) hen
    exact ⟨v, he2e ▸ hv, hvp⟩
  have h2t : processPass '/' dir page_url (str "link") (str "href") p1.1 ≠ none := by
    apply processPass_total
    intro e2 he2 hname
    obtain ⟨v, hv, hvp⟩ := hattrs2 e2 he2 hname
    exact processElem_total '/' dir (str "href") page_url e2 b hb hok v hv hvp
  cases hp2 : processPass '/' dir page_url (str "link") (str "href") p1.1 with
  | none => exact absurd hp2 h2t
  | some p2 =>
  have hsh2 : List.Forall₂ (passRel (str "link")) p1.1 p2.1 :=
    processPass_shape '/' dir page_url (str "link") (str "href") p1.1 p2.1 p2.2
      (by rw [hp2])
  have hattrs3 : ∀ e3 ∈ p2.1, e3.name = str "script" →
      ∃ v, getAttr e3 (str "src") = some v ∧ urlparse v [] ≠ none := by
    intro e3 he3 hname
    obtain ⟨e2, he2, hrel2⟩ := forall₂_mem_right p1.1 p2.1 hsh2 e3 he3
    have hen2 : e2.name = str "script" := by rw [← hrel2.1]; exact hname
    have he32 : e3 = e2 := hrel2.2 (by rw [hen2]; decide)
    obtain ⟨e, he, hrel⟩ := forall₂_mem_right doc p1.1 hsh1 e2 he2
    have hen : e.name = str "script" := by rw [← hrel.1]; exact hen2
    have he2e : e2 = e := hrel.2 (by rw [hen]; decide)
    obtain ⟨v, hv, hvp⟩ := hattrs e he (str "script", str "src")
      (by simp [TAGS_LINK_ATTRIBUTES]) hen
    exact ⟨v, he32 ▸ he2e ▸ hv, hvp⟩
  have h3t : processPass '/' dir page_url (str "script") (str "src") p2.1 ≠ none := by
    apply processPass_total
    intro e3 he3 hname
    obtain ⟨v, hv, hvp⟩ := hattrs3 e3 he3 hname
    exact processElem_total '/' dir (str "src") page_url e3 b hb hok v hv hvp
  cases hp3 : processPass '/' dir page_url (str "script") (str "src") p2.1 with
  | none => exact absurd hp3 h3t
  | some p3 =>
  have := search_some_intro '/' doc page_url dir p1 p2 p3 hdir hp1 hp2 hp3
  unfold search_resources
  rw [this]
  simp

/-- Witness for C3 amended at a concrete input (all matching elements carry
their attributes, so the transform succeeds). -/
theorem claim_C3_witness :
    search_resources
      [⟨str "img", [(str "src", str "/a.png")]⟩,
       ⟨str "p", []⟩] (str "https://example.com/") ≠ none :=
  claim_C3_amended
    [⟨str "img", [(str "src", str "/a.png")]⟩, ⟨str "p", []⟩]
    (str "https://example.com/")
    ⟨str "https", str "example.com", str "/", [], [], []⟩
    (by decide) (by decide)
    (by decide)

/-! ### Resource ordering -/

/-- Counterexample to C1: with a `<link>` element before an `<img>` element
in the document, the img's resource precedes the link's resource in the
output, because `search_resources` iterates over `TAGS_LINK_ATTRIBUTES`
kind by kind; the output order is not document order. -/
theorem claim_C1_counterexample :
    search_resources
      [⟨str "link", [(str "href", str "/style.css")]⟩,
       ⟨str "img", [(str "src", str "/logo.png")]⟩]
      (str "https://example.com/") =
      some ([⟨str "link", [(str "href", str "example-com_files/example-com-style.css")]⟩,
             ⟨str "img", [(str "src", str "example-com_files/example-com-logo.png")]⟩],
            [⟨str "https://example.com/logo.png", str "example-com-logo.png"⟩,
             ⟨str "https://example.com/style.css", str "example-com-style.css"⟩]) ∧
    [str "https://example.com/logo.png", str "https://example.com/style.css"] ≠
      [str "https://example.com/style.css", str "https://example.com/logo.png"] := by
  decide

/-- C1 amended: the resource sequence of `search_resources` is grouped by
tag kind in the fixed `TAGS_LINK_ATTRIBUTES` order — all `img` resources,
then all `link` resources, then all `script` resources — and within each
kind the entries follow document order of that kind's elements (each
kind's contribution equals the per-element extraction over the document
filtered to that kind, in order). -/
theorem claim_C1_amended (sep : Char) (doc : List Elem) (page_url : Str)
    (out : List Elem × List Resource) (dir : Str)
    (hdir : get_dir_name page_url = some dir)
    (h : search_resources_sep sep doc page_url = some out) :
    ∃ r1 r2 r3 : List Resource,
      kindRes dir page_url (str "img") (str "src") doc = some r1 ∧
      kindRes dir page_url (str "link") (str "href") doc = some r2 ∧
      kindRes dir page_url (str "script") (str "src") doc = some r3 ∧
      out.2 = r1 ++ r2 ++ r3 := by
  obtain ⟨dir2, p1, p2, p3, hdir2, h1, h2, h3, ho⟩ :=
    search_some_elim sep doc page_url out h
  have hde : dir2 = dir := by
    rw [hdir] at hdir2
    injection hdir2 with h9
    exact h9.symm
  subst hde
  have hsh1 : List.Forall₂ (passRel (str "img")) doc p1.1 :=
    processPass_shape sep dir2 page_url (str "img") (str "src") doc p1.1 p1.2
      (by rw [h1])
  have hsh2 : List.Forall₂ (passRel (str "link")) p1.1 p2.1 :=
    processPass_shape sep dir2 page_url (str "link") (str "href") p1.1 p2.1 p2.2
      (by rw [h2])
  refine ⟨p1.2, p2.2, p3.2, ?_, ?_, ?_, by rw [ho]⟩
  · exact processPass_kindRes sep dir2 page_url (str "img") (str "src") doc p1.1 p1.2
      (by rw [h1])
  · have hk := processPass_kindRes sep dir2 page_url (str "link") (str "href")
      p1.1 p2.1 p2.2 (by rw [h2])
    unfold kindRes at hk ⊢
    rw [← filter_stable_of_passRel (str "img") (str "link") (by decide) doc p1.1 hsh1]
    exact hk
  · have hk := processPass_kindRes sep dir2 page_url (str "script") (str "src")
      p2.1 p3.1 p3.2 (by rw [h3])
    unfold kindRes at hk ⊢
    rw [← filter_stable_of_passRel (str "img") (str "script") (by decide) doc p1.1 hsh1,
        ← filter_stable_of_passRel (str "link") (str "script") (by decide) p1.1 p2.1 hsh2]
    exact hk

/-- Witness for C1 amended at a concrete input (the scenario of spec
section 8). -/
theorem claim_C1_witness :
    ∃ r1 r2 r3 : List Resource,
      kindRes (str "example-com-blog-post_files") (str "https://example.com/blog/post")
        (str "img") (str "src")
        [⟨str "img", [(str "src", str "/images/a.png")]⟩,
         ⟨str "script", [(str "src", str "https://cdn.other.com/x.js")]⟩,
         ⟨str "link", [(str "href", str "style.css")]⟩] = some r1 ∧
      kindRes (str "example-com-blog-post_files") (str "https://example.com/blog/post")
        (str "link") (str "href")
        [⟨str "img", [(str "src", str "/images/a.png")]⟩,
         ⟨str "script", [(str "src", str "https://cdn.other.com/x.js")]⟩,
         ⟨str "link", [(str "href", str "style.css")]⟩] = some r2 ∧
      kindRes (str "example-com-blog-post_files") (str "https://example.com/blog/post")
        (str "script") (str "src")
        [⟨str "img", [(str "src", str "/images/a.png")]⟩,
         ⟨str "script", [(str "src", str "https://cdn.other.com/x.js")]⟩,
         ⟨str "link", [(str "href", str "style.css")]⟩] = some r3 ∧
      ([⟨str "https://example.com/images/a.png", str "example-com-images-a.png"⟩,
        ⟨str "https://example.com/style.css", str "example-com-style.css"⟩] :
          List Resource) =
        r1 ++ r2 ++ r3 :=
  claim_C1_amended '/'
    [⟨str "img", [(str "src", str "/images/a.png")]⟩,
     ⟨str "script", [(str "src", str "https://cdn.other.com/x.js")]⟩,
     ⟨str "link", [(str "href", str "style.css")]⟩]
    (str "https://example.com/blog/post")
    ([⟨str "img", [(str "src",
        str "example-com-blog-post_files/example-com-images-a.png")]⟩,
      ⟨str "script", [(str "src", str "https://cdn.other.com/x.js")]⟩,
      ⟨str "link", [(str "href",
        str "example-com-blog-post_files/example-com-style.css")]⟩],
     [⟨str "https://example.com/images/a.png", str "example-com-images-a.png"⟩,
      ⟨str "https://example.com/style.css", str "example-com-style.css"⟩])
    (str "example-com-blog-post_files")
    (by decide) (by decide)

/-! ### The attribute rewrite -/

theorem hyphenize_no_slash (l : Str) : ¬ '/' ∈ hyphenize l := by
  intro h
  unfold hyphenize at h
  obtain ⟨c, _, hc⟩ := List.mem_map.mp h
  by_cases hca : c.isAlphanum = true
  · rw [if_pos hca] at hc
    rw [hc] at hca
    exact absurd hca (by decide)
  · rw [if_neg hca] at hc
    exact absurd hc (by decide)

theorem create_resource_name_elim (l nm : Str) (h : create_resource_name l = some nm) :
    ∃ b : SplitURL, urlsplit l [] = some b ∧
      nm = hyphenize b.netloc ++ '-' ::
        (hyphenize (match (splitExt b.path).1 with | '/' :: r => r | r => r) ++
         '.' :: (if (splitExt b.path).2 = [] then HTML_EXT else (splitExt b.path).2)) := by
  cases hs : urlsplit l [] with
  | none =>
    unfold create_resource_name parse_url at h
    rw [hs] at h
    simp at h
  | some b =>
    rw [create_resource_name_some l b hs] at h
    injection h with h
    exact ⟨b, rfl, h.symm⟩

theorem create_resource_name_head (l nm : Str) (h : create_resource_name l = some nm) :
    nm ≠ [] ∧ nm.take 1 ≠ ['/'] := by
  obtain ⟨b, _, hnm⟩ := create_resource_name_elim l nm h
  rw [hnm]
  cases hh : hyphenize b.netloc with
  | nil =>
    refine ⟨by simp, ?_⟩
    simp only [List.nil_append, List.take_succ_cons, List.take_zero]
    decide
  | cons c cs =>
    have hcs : c ≠ '/' := by
      intro he
      apply hyphenize_no_slash b.netloc
      rw [hh, he]
      exact List.mem_cons_self '/' cs
    refine ⟨by simp, ?_⟩
    simp only [List.cons_append, List.take_succ_cons, List.take_zero]
    intro he
    injection he with he
    exact hcs he

theorem get_dir_name_props (page dir : Str) (h : get_dir_name page = some dir) :
    dir ≠ [] ∧ dir.getLast? ≠ some '/' := by
  cases hs : urlsplit page [] with
  | none =>
    unfold get_dir_name at h
    rw [hs] at h
    simp at h
  | some u =>
    rw [get_dir_name_some page u hs] at h
    injection h with h
    rw [← h]
    constructor
    · simp [str]
    · rw [List.getLast?_append_of_ne_nil _ (by simp [str])]
      decide

theorem path_join_slash (dir nm : Str) (h1 : dir ≠ []) (h2 : dir.getLast? ≠ some '/')
    (h3 : nm.take 1 ≠ ['/']) : path_join '/' dir nm = dir ++ '/' :: nm := by
  unfold path_join
  rw [if_neg (by simpa [str] using h3), if_neg (by rintro (h | h); exact h1 h; exact h2 h)]

/-- Counterexample to C5: the directory separator in the rewritten
attribute is `os.path.join`'s host separator, not a forward slash
"regardless of host filesystem convention": on a host whose separator is a
backslash, the rewritten attribute contains a backslash. -/
theorem claim_C5_counterexample :
    search_resources_sep '\\' [⟨str "img", [(str "src", str "/a.png")]⟩]
      (str "https://example.com/") =
      some ([⟨str "img",
               [(str "src", str "example-com_files\\example-com-a.png")]⟩],
            [⟨str "https://example.com/a.png", str "example-com-a.png"⟩]) ∧
    str "example-com_files\\example-com-a.png" ≠
      str "example-com_files/example-com-a.png" := by
  decide

/-- C5 amended: on a POSIX host (separator `/`), every matching element
whose link attribute resolves to a local link has that attribute rewritten
in place to `<resourcesSubdir>/<name>` with a forward slash, and
contributes exactly one Resource record `{link, name}`; an element whose
attribute resolves non-local is left untouched and contributes no record.
On other hosts the separator is `os.path.join`'s host separator. -/
theorem claim_C5_amended :
    (∀ (dir page_url attr : Str) (e : Elem) (v link nm : Str),
        get_dir_name page_url = some dir →
        getAttr e attr = some v →
        get_full_link v page_url = some link →
        is_local_link link page_url = some true →
        create_resource_name link = some nm →
        processElem '/' dir page_url attr e =
          some (setAttr e attr (dir ++ '/' :: nm), [⟨link, nm⟩])) ∧
    (∀ (dir page_url attr : Str) (e : Elem) (v link : Str),
        getAttr e attr = some v →
        get_full_link v page_url = some link →
        is_local_link link page_url = some false →
        processElem '/' dir page_url attr e = some (e, [])) := by
  constructor
  · intro dir page_url attr e v link nm hdir hv hl hloc hn
    obtain ⟨hd1, hd2⟩ := get_dir_name_props page_url dir hdir
    obtain ⟨_, hn2⟩ := create_resource_name_head link nm hn
    rw [processElem_local '/' dir page_url attr e v link nm hv hl hloc hn,
        path_join_slash dir nm hd1 hd2 hn2]
  · intro dir page_url attr e v link hv hl hloc
    exact processElem_nonlocal '/' dir page_url attr e v link hv hl hloc

/-- Witness for C5 amended at a concrete input. -/
theorem claim_C5_witness :
    processElem '/' (str "example-com_files") (str "https://example.com/")
      (str "src") ⟨str "img", [(str "src", str "/a.png")]⟩ =
      some (setAttr ⟨str "img", [(str "src", str "/a.png")]⟩ (str "src")
              (str "example-com_files" ++ '/' :: str "example-com-a.png"),
            [⟨str "https://example.com/a.png", str "example-com-a.png"⟩]) :=
  claim_C5_amended.1 (str "example-com_files") (str "https://example.com/")
    (str "src") ⟨str "img", [(str "src", str "/a.png")]⟩ (str "/a.png")
    (str "https://example.com/a.png") (str "example-com-a.png")
    (by decide) (by decide) (by decide) (by decide) (by decide)

/-! ### Resolution of scheme-less links -/

/-- Counterexample to C9: a protocol-relative link is returned by
`get_full_link` unchanged, so the resolved link carries no scheme — it
does not inherit the page's scheme and is not an absolute URL. -/
theorem claim_C9_counterexample :
    get_full_link (str "//cdn.other.com/lib.js") (str "https://example.com/a") =
      some (str "//cdn.other.com/lib.js") ∧
    (urlparse (str "//cdn.other.com/lib.js") []).map ParseURL.scheme = some [] := by
  decide

/-- C9 amended: a link with neither scheme nor netloc resolves, against a
well-formed page URL, to an absolute URL carrying the page's scheme and
host; but a link that already has a network location — including a
scheme-less protocol-relative link — is returned unchanged, keeping
whatever scheme it had (possibly none). -/
theorem claim_C9_amended :
    (∀ (link page_url : Str) (b u : ParseURL),
        urlparse page_url [] = some b → pageOkB b = true →
        urlparse link [] = some u → u.scheme = [] → u.netloc = [] →
        ∃ (res : Str) (r : SplitURL), get_full_link link page_url = some res ∧
          urlsplit res [] = some r ∧ r.scheme = b.scheme ∧ r.netloc = b.netloc) ∧
    (∀ (link page_url : Str) (b u : ParseURL),
        urlparse page_url [] = some b →
        urlparse link [] = some u → u.netloc ≠ [] →
        get_full_link link page_url = some link) :=
  ⟨fun link page_url b u hb hok hu hus hnl =>
      get_full_link_resolves link page_url b u hb hok hu hus hnl,
   fun link page_url b u hb hu hne =>
      get_full_link_unchanged link page_url b u hb hu hne⟩

/-- Witness for C9 amended at a concrete input. -/
theorem claim_C9_witness :
    ∃ (res : Str) (r : SplitURL),
      get_full_link (str "style.css") (str "https://example.com/blog/post") =
        some res ∧
      urlsplit res [] = some r ∧ r.scheme = str "https" ∧
      r.netloc = str "example.com" :=
  claim_C9_amended.1 (str "style.css") (str "https://example.com/blog/post")
    ⟨str "https", str "example.com", str "/blog/post", [], [], []⟩
    ⟨[], [], str "style.css", [], [], []⟩
    (by decide) (by decide) (by decide) rfl rfl

/-! ### Plain relative paths and the shape of resolution -/

/-- Characters allowed in a "plain" path segment: no URL delimiters. -/
def plainChar (c : Char) : Bool :=
  c.isAlphanum || c == '.' || c == '-' || c == '_'

/-- A well-behaved path segment: nonempty, not a dot segment, plain. -/
def goodSeg (t : Str) : Prop :=
  t ≠ [] ∧ t ≠ str "." ∧ t ≠ str ".." ∧ t.all plainChar = true

theorem plainChar_clean (c : Char) (h : plainChar c = true) : cleanChar c = true := by
  have h1 : c ≠ '\t' := by intro e; rw [e] at h; exact absurd h (by decide)
  have h2 : c ≠ '\r' := by intro e; rw [e] at h; exact absurd h (by decide)
  have h3 : c ≠ '\n' := by intro e; rw [e] at h; exact absurd h (by decide)
  simp [cleanChar, h1, h2, h3]

theorem plainChar_not (c : Char) (h : plainChar c = true) :
    c ≠ ':' ∧ c ≠ '/' ∧ c ≠ '?' ∧ c ≠ '#' ∧ c ≠ ';' := by
  refine ⟨?_, ?_, ?_, ?_, ?_⟩ <;>
    (intro e; rw [e] at h; exact absurd h (by decide))

theorem getLast?_mem_of_eq : ∀ (l : List Str) (a : Str), l.getLast? = some a → a ∈ l := by
  intro l
  induction l with
  | nil => intro a h; simp at h
  | cons x xs ih =>
    intro a h
    cases xs with
    | nil =>
      simp at h
      simp [h]
    | cons y ys =>
      rw [List.getLast?_cons_cons] at h
      exact List.mem_cons_of_mem x (ih a h)

theorem filterMiddle_cons_all (x : Str) (segs : List Str)
    (h : ∀ t ∈ segs, t ≠ []) : filterMiddle (x :: segs) = x :: segs := by
  cases segs with
  | nil => rfl
  | cons b bs =>
    unfold filterMiddle
    dsimp only
    cases hrev : (b :: bs).reverse with
    | nil => simp at hrev
    | cons last midrev =>
      dsimp only
      have hdec : midrev.reverse ++ [last] = b :: bs := by
        have h9 := congrArg List.reverse hrev
        simp at h9
        exact h9.symm
      have hfil : midrev.reverse.filter (fun s => !s.isEmpty) = midrev.reverse := by
        apply List.filter_eq_self.mpr
        intro t ht
        have : t ∈ b :: bs := by
          rw [← hdec]
          exact List.mem_append_left _ ht
        simp [List.isEmpty_eq_false]
        exact h t this
      rw [hfil, List.cons_append, hdec]

theorem resolveLoop_no_dots (l : List Str)
    (h : ∀ t ∈ l, t ≠ str ".." ∧ t ≠ str ".") : resolveLoop l = l := by
  unfold resolveLoop
  suffices hgen : ∀ acc : List Str,
      l.foldl (fun acc seg =>
        if seg = str ".." then acc.dropLast
        else if seg = str "." then acc
        else acc ++ [seg]) acc = acc ++ l by
    simpa using hgen []
  induction l with
  | nil => intro acc; simp
  | cons t ts ih =>
    intro acc
    obtain ⟨h1, h2⟩ := h t (List.mem_cons_self t ts)
    simp only [List.foldl_cons, if_neg h1, if_neg h2]
    rw [ih (fun y hy => h y (List.mem_cons_of_mem t hy))]
    simp

theorem urlsplitTotal_plain (p d : Str)
    (hchars : ∀ x ∈ p, x = '/' ∨ plainChar x = true)
    (hh : p.take 2 ≠ str "//") :
    urlsplitTotal p d = ⟨sanitize d, [], p, [], []⟩ := by
  have hclean : p.all cleanChar = true := by
    rw [List.all_eq_true]
    intro x hx
    rcases hchars x hx with h | h
    · rw [h]; decide
    · exact plainChar_clean x h
  have hnotmem : ∀ c : Char, c ≠ '/' → plainChar c = false → ¬ c ∈ p := by
    intro c hc hcp hmem
    rcases hchars c hmem with h | h
    · exact hc h
    · rw [h] at hcp; exact absurd hcp (by decide)
  have hsan : sanitize p = p := sanitize_eq_self p hclean
  have hcolon : splitFirst ':' p = none :=
    splitFirst_eq_none ':' p (hnotmem ':' (by decide) (by decide))
  have hhash : splitFirst '#' p = none :=
    splitFirst_eq_none '#' p (hnotmem '#' (by decide) (by decide))
  have hqm : splitFirst '?' p = none :=
    splitFirst_eq_none '?' p (hnotmem '?' (by decide) (by decide))
  rw [urlsplitTotal_def, hsan]
  unfold schemeSplit
  rw [hcolon]
  dsimp only
  unfold netlocSplit
  rw [if_neg hh]
  dsimp only
  unfold splitHash
  rw [hhash]
  dsimp only
  unfold splitQm
  rw [hqm]

theorem urlparse_plain (p d : Str)
    (hchars : ∀ x ∈ p, x = '/' ∨ plainChar x = true)
    (hh : p.take 2 ≠ str "//") :
    urlparse p d = some ⟨sanitize d, [], p, [], [], []⟩ := by
  have hsplit : urlsplit p d = some ⟨sanitize d, [], p, [], []⟩ := by
    rw [urlsplit_eq_some_iff]
    exact ⟨urlsplitTotal_plain p d hchars hh, rfl⟩
  have hnosemi : p.contains ';' = false := by
    rw [← Bool.not_eq_true]
    intro hc
    have hmem : ';' ∈ p := by simpa using hc
    rcases hchars ';' hmem with h | h
    · exact absurd h (by decide)
    · exact absurd h (by decide)
  have := urlparse_intro_plain p d ⟨sanitize d, [], p, [], []⟩ hsplit
    (by dsimp only; rw [hnosemi, Bool.and_false])
  exact this

theorem getLast?_cons_ne (x : Str) (l : List Str) (h : l ≠ []) :
    (x :: l).getLast? = l.getLast? := by
  cases l with
  | nil => exact absurd rfl h
  | cons y ys => exact List.getLast?_cons_cons

theorem joinOn_nil_cons (segs : List Str) (h : segs ≠ []) :
    joinOn '/' ([] :: segs) = '/' :: joinOn '/' segs := by
  cases segs with
  | nil => exact absurd rfl h
  | cons t ts => rfl

/-- A nonempty join of good segments starts with a plain character. -/
theorem joinOn_shape (segs : List Str) (hne : segs ≠ [])
    (hgood : ∀ t ∈ segs, goodSeg t) :
    ∃ c rest, joinOn '/' segs = c :: rest ∧ plainChar c = true := by
  cases segs with
  | nil => exact absurd rfl hne
  | cons t ts =>
    obtain ⟨h1, _, _, h4⟩ := hgood t (List.mem_cons_self t ts)
    cases t with
    | nil => exact absurd rfl h1
    | cons c cs =>
      have hc : plainChar c = true := by
        simp only [List.all_cons, Bool.and_eq_true] at h4
        exact h4.1
      cases ts with
      | nil => exact ⟨c, cs, rfl, hc⟩
      | cons t2 ts2 => exact ⟨c, cs ++ '/' :: joinOn '/' (t2 :: ts2), rfl, hc⟩

theorem mem_joinOn_good (segs : List Str) (hgood : ∀ t ∈ segs, goodSeg t) :
    ∀ x ∈ joinOn '/' segs, x = '/' ∨ plainChar x = true := by
  intro x hx
  rcases mem_joinOn '/' segs x hx with h | ⟨t, ht, hxt⟩
  · exact Or.inl h
  · right
    have h4 := (hgood t ht).2.2.2
    rw [List.all_eq_true] at h4
    exact h4 x hxt

/-- A join of good segments, with or without a leading slash, parses as a
bare path with no scheme, netloc, params, query or fragment. -/
theorem urlparse_joinOn (segs : List Str) (d : Str) (h0 : segs ≠ [])
    (hg : ∀ t ∈ segs, goodSeg t) :
    urlparse (joinOn '/' segs) d =
      some ⟨sanitize d, [], joinOn '/' segs, [], [], []⟩ ∧
    urlparse ('/' :: joinOn '/' segs) d =
      some ⟨sanitize d, [], '/' :: joinOn '/' segs, [], [], []⟩ := by
  obtain ⟨c, rest, hpc, hcp⟩ := joinOn_shape segs h0 hg
  have hcne : c ≠ '/' := (plainChar_not c hcp).2.1
  have hchars := mem_joinOn_good segs hg
  have hchars2 : ∀ x ∈ ('/' :: joinOn '/' segs), x = '/' ∨ plainChar x = true := by
    intro x hx
    rcases List.mem_cons.mp hx with h | h
    · exact Or.inl h
    · exact hchars x h
  have htake2 : ¬ (List.take 2 (joinOn '/' segs) = str "//") := by
    rw [hpc]
    cases rest with
    | nil =>
      intro h
      have hlen := congrArg List.length h
      simp [str] at hlen
    | cons e es =>
      intro h
      rw [show str "//" = ['/', '/'] from rfl] at h
      simp at h
      exact hcne h.1
  have htake2' : ¬ (List.take 2 ('/' :: joinOn '/' segs) = str "//") := by
    rw [hpc]
    intro h
    rw [show str "//" = ['/', '/'] from rfl] at h
    simp at h
    exact hcne h
  exact ⟨urlparse_plain _ d hchars htake2, urlparse_plain _ d hchars2 htake2'⟩

/-- Shared tail of the `urljoin` trace on plain segments: after the segment
list has been established as `[] :: segs`, the resolution loop is trivial
and `urlunparse` emits the rooted path. -/
theorem resolve_plain_tail (s n : Str) (hs0 : s ≠ []) (hn0 : n ≠ [])
    (segs : List Str) (hsegs0 : segs ≠ []) (hgood : ∀ t ∈ segs, goodSeg t) :
    urlunparse ⟨s, n, joinOn '/'
      (if ([] :: segs : List Str).getLast? = some (str "..") ∨
          ([] :: segs : List Str).getLast? = some (str ".")
       then resolveLoop ([] :: segs) ++ [[]] else resolveLoop ([] :: segs)),
      [], [], []⟩ = s ++ str "://" ++ n ++ '/' :: joinOn '/' segs := by
  have hlast : ¬ (([] :: segs : List Str).getLast? = some (str "..") ∨
      ([] :: segs : List Str).getLast? = some (str ".")) := by
    rw [getLast?_cons_ne [] segs hsegs0]
    rintro (h | h)
    · have ht := getLast?_mem_of_eq segs _ h
      exact absurd rfl (hgood _ ht).2.2.1
    · have ht := getLast?_mem_of_eq segs _ h
      exact absurd rfl (hgood _ ht).2.1
  rw [if_neg hlast]
  have hnodots : ∀ t ∈ ([] :: segs : List Str), t ≠ str ".." ∧ t ≠ str "." := by
    intro t ht
    rcases List.mem_cons.mp ht with h | h
    · rw [h]; exact ⟨by decide, by decide⟩
    · exact ⟨(hgood t h).2.2.1, (hgood t h).2.1⟩
  rw [resolveLoop_no_dots _ hnodots]
  rw [joinOn_nil_cons segs hsegs0]
  show urlunsplit s n ('/' :: joinOn '/' segs) [] [] = _
  rw [urlunsplit_eq_form s n ('/' :: joinOn '/' segs) [] [] hs0 hn0]
  have h1 : ensuredPath ('/' :: joinOn '/' segs) = '/' :: joinOn '/' segs := by
    unfold ensuredPath
    rw [if_neg]
    intro hcond
    rw [Bool.and_eq_true] at hcond
    have hne : ¬ (List.take 1 ('/' :: joinOn '/' segs) = str "/") := by
      simpa using hcond.2
    exact hne rfl
  have h2 : optPre '?' [] = [] := rfl
  have h3 : optPre '#' [] = [] := rfl
  rw [h1, h2, h3]
  rw [show str "://" = [':', '/', '/'] from rfl]
  simp [List.append_assoc]

/-- `urljoinCore` of a bare domain base with a relative plain-segment path:
the result is the domain followed by the rooted path — the base path plays
no role because the domain base has an empty path. -/
theorem urljoinCore_plain_rel (s n link : Str)
    (hs0 : s ≠ []) (hsrel : s ∈ uses_relative) (hsnet : s ∈ uses_netloc)
    (hn0 : n ≠ [])
    (segs : List Str) (hsegs0 : segs ≠ []) (hgood : ∀ t ∈ segs, goodSeg t) :
    urljoinCore ⟨s, n, [], [], [], []⟩ ⟨s, [], joinOn '/' segs, [], [], []⟩ link =
      s ++ str "://" ++ n ++ '/' :: joinOn '/' segs := by
  obtain ⟨c, rest, hpc, hcp⟩ := joinOn_shape segs hsegs0 hgood
  have hcne : c ≠ '/' := (plainChar_not c hcp).2.1
  have hp0 : joinOn '/' segs ≠ [] := by rw [hpc]; simp
  have hnoslash : ∀ t ∈ segs, ¬ '/' ∈ t := by
    intro t ht hmem
    have h4 := (hgood t ht).2.2.2
    rw [List.all_eq_true] at h4
    exact absurd (h4 '/' hmem) (by decide)
  have hsplit : splitOnChar '/' (joinOn '/' segs) = segs :=
    splitOnChar_joinOn '/' segs hsegs0 hnoslash
  unfold urljoinCore
  rw [if_neg ?hc1]
  case hc1 =>
    dsimp only
    rintro (h | h)
    · exact h rfl
    · exact h hsrel
  rw [if_neg ?hc2]
  case hc2 =>
    dsimp only
    rintro ⟨_, h⟩
    exact h rfl
  dsimp only
  rw [if_pos hsnet]
  rw [if_neg ?hc3]
  case hc3 =>
    dsimp only
    rintro ⟨h, _⟩
    exact hp0 h
  have habs : ¬ (List.take 1 (joinOn '/' segs) = ['/']) := by
    rw [hpc]
    simp [hcne]
  rw [if_neg habs]
  have hbp : (if (splitOnChar '/' ([] : Str)).getLast? ≠ some [] then
      (splitOnChar '/' ([] : Str)).dropLast
    else splitOnChar '/' ([] : Str)) = [([] : Str)] := by
    rw [if_neg (by simp [splitOnChar])]
    rfl
  rw [hbp, hsplit, List.singleton_append]
  rw [filterMiddle_cons_all [] segs (fun t ht => (hgood t ht).1)]
  exact resolve_plain_tail s n hs0 hn0 segs hsegs0 hgood

/-- `urljoinCore` of a bare domain base with an absolute plain-segment path:
the result appends the path, unchanged, to the domain. -/
theorem urljoinCore_plain_abs (s n link : Str)
    (hs0 : s ≠ []) (hsrel : s ∈ uses_relative) (hsnet : s ∈ uses_netloc)
    (hn0 : n ≠ [])
    (segs : List Str) (hsegs0 : segs ≠ []) (hgood : ∀ t ∈ segs, goodSeg t) :
    urljoinCore ⟨s, n, [], [], [], []⟩
        ⟨s, [], '/' :: joinOn '/' segs, [], [], []⟩ link =
      s ++ str "://" ++ n ++ '/' :: joinOn '/' segs := by
  have hnoslash : ∀ t ∈ segs, ¬ '/' ∈ t := by
    intro t ht hmem
    have h4 := (hgood t ht).2.2.2
    rw [List.all_eq_true] at h4
    exact absurd (h4 '/' hmem) (by decide)
  have hsplit : splitOnChar '/' (joinOn '/' segs) = segs :=
    splitOnChar_joinOn '/' segs hsegs0 hnoslash
  unfold urljoinCore
  rw [if_neg ?hd1]
  case hd1 =>
    dsimp only
    rintro (h | h)
    · exact h rfl
    · exact h hsrel
  rw [if_neg ?hd2]
  case hd2 =>
    dsimp only
    rintro ⟨_, h⟩
    exact h rfl
  dsimp only
  rw [if_pos hsnet]
  rw [if_neg ?hd3]
  case hd3 =>
    dsimp only
    rintro ⟨h, _⟩
    simp at h
  have habs : List.take 1 ('/' :: joinOn '/' segs) = ['/'] := rfl
  rw [if_pos habs]
  rw [splitOnChar_cons_self '/' (joinOn '/' segs), hsplit]
  exact resolve_plain_tail s n hs0 hn0 segs hsegs0 hgood

/-- `urljoin` of a bare `scheme://netloc` domain with a plain-segment path,
relative or absolute: both give the domain plus the rooted path. -/
theorem urljoin_plain_pair (s n : Str) (hsOK : schemeOK s = true)
    (hn0 : n ≠ []) (hn1 : n.all netlocChar = true)
    (hnb : bracketOk n = true) (hcn : n.all cleanChar = true)
    (segs : List Str) (hsegs0 : segs ≠ []) (hgood : ∀ t ∈ segs, goodSeg t) :
    urljoin (s ++ str "://" ++ n) (joinOn '/' segs) =
      some (s ++ str "://" ++ n ++ '/' :: joinOn '/' segs) ∧
    urljoin (s ++ str "://" ++ n) ('/' :: joinOn '/' segs) =
      some (s ++ str "://" ++ n ++ '/' :: joinOn '/' segs) := by
  obtain ⟨hs0, hs1, hs2, hsrel, hsnet, hspar⟩ := schemeOK_elim s hsOK
  have hsclean : s.all cleanChar = true := (all_scheme_char_facts s hs1).2
  have hdom := urlparse_domain s n hs0 hs1 hs2 hn0 hn1 hnb hcn
  have hdomne : s ++ str "://" ++ n ≠ [] := by
    intro he
    rw [List.append_eq_nil] at he
    exact hn0 he.2
  obtain ⟨c, rest, hpc, hcp⟩ := joinOn_shape segs hsegs0 hgood
  have hp0 : joinOn '/' segs ≠ [] := by rw [hpc]; simp
  have hp0' : ('/' :: joinOn '/' segs : Str) ≠ [] := by simp
  obtain ⟨hparse_rel, hparse_abs⟩ := urlparse_joinOn segs s hsegs0 hgood
  rw [sanitize_eq_self s hsclean] at hparse_rel hparse_abs
  constructor
  · unfold urljoin
    rw [if_neg hdomne, if_neg hp0, hdom]
    simp only [Option.bind_eq_bind, Option.some_bind]
    rw [hparse_rel]
    simp only [Option.some_bind, Option.pure_def]
    exact congrArg some
      (urljoinCore_plain_rel s n _ hs0 hsrel hsnet hn0 segs hsegs0 hgood)
  · unfold urljoin
    rw [if_neg hdomne, if_neg hp0', hdom]
    simp only [Option.bind_eq_bind, Option.some_bind]
    rw [hparse_abs]
    simp only [Option.some_bind, Option.pure_def]
    exact congrArg some
      (urljoinCore_plain_abs s n _ hs0 hsrel hsnet hn0 segs hsegs0 hgood)

/-- Counterexample to C2: the code joins every netloc-less link against the
bare `scheme://netloc` root of the page, not against the page URL itself,
so a relative path does NOT resolve against the page's current path as
standard URL-joining semantics (shown by the second conjunct) would. -/
theorem claim_C2_counterexample :
    get_full_link (str "style.css") (str "https://example.com/blog/post") =
      some (str "https://example.com/style.css") ∧
    urljoin (str "https://example.com/blog/post") (str "style.css") =
      some (str "https://example.com/blog/style.css") := by
  decide

/-- C2 amended: a link with no netloc is joined against the page's bare
`scheme://host` root, so a plain relative path and the same path with a
leading slash both resolve to `scheme://host/<path>` — the page's own path
is discarded; a link that already has a netloc (including a
protocol-relative one) is returned unchanged, so protocol-relative links
do not inherit the page's scheme. -/
theorem claim_C2_amended :
    (∀ (page_url : Str) (b : ParseURL) (segs : List Str),
        urlparse page_url [] = some b → pageOkB b = true →
        segs ≠ [] → (∀ t ∈ segs, goodSeg t) →
        get_full_link (joinOn '/' segs) page_url =
          some (b.scheme ++ str "://" ++ b.netloc ++ '/' :: joinOn '/' segs)) ∧
    (∀ (page_url : Str) (b : ParseURL) (segs : List Str),
        urlparse page_url [] = some b → pageOkB b = true →
        segs ≠ [] → (∀ t ∈ segs, goodSeg t) →
        get_full_link ('/' :: joinOn '/' segs) page_url =
          some (b.scheme ++ str "://" ++ b.netloc ++ '/' :: joinOn '/' segs)) ∧
    (∀ (page_url link : Str) (b u : ParseURL),
        urlparse page_url [] = some b → urlparse link [] = some u →
        u.netloc ≠ [] → get_full_link link page_url = some link) := by
  refine ⟨?_, ?_, ?_⟩
  · intro page_url b segs hb hok h0 hg
    obtain ⟨hsOK, hn0⟩ := pageOkB_elim b hok
    obtain ⟨wfn, wfb, wfnc, _, _, _, _⟩ := urlparse_wf page_url [] b hb
    have hul : urlparse (joinOn '/' segs) [] =
        some ⟨[], [], joinOn '/' segs, [], [], []⟩ :=
      (urlparse_joinOn segs [] h0 hg).1
    rw [get_full_link_join _ page_url b _ hb hul rfl]
    exact (urljoin_plain_pair b.scheme b.netloc hsOK hn0 wfn wfb wfnc
      segs h0 hg).1
  · intro page_url b segs hb hok h0 hg
    obtain ⟨hsOK, hn0⟩ := pageOkB_elim b hok
    obtain ⟨wfn, wfb, wfnc, _, _, _, _⟩ := urlparse_wf page_url [] b hb
    have hul : urlparse ('/' :: joinOn '/' segs) [] =
        some ⟨[], [], '/' :: joinOn '/' segs, [], [], []⟩ :=
      (urlparse_joinOn segs [] h0 hg).2
    rw [get_full_link_join _ page_url b _ hb hul rfl]
    exact (urljoin_plain_pair b.scheme b.netloc hsOK hn0 wfn wfb wfnc
      segs h0 hg).2
  · intro page_url link b u hb hu hne
    exact get_full_link_unchanged link page_url b u hb hu hne

/-- Witness for C2 amended on the spec's own scenario page. -/
theorem claim_C2_witness :
    get_full_link (str "assets/main.css") (str "https://example.com/blog/post") =
      some (str "https://example.com/assets/main.css") ∧
    get_full_link (str "/images/a.png") (str "https://example.com/blog/post") =
      some (str "https://example.com/images/a.png") ∧
    get_full_link (str "//cdn.other.com/x.js") (str "https://example.com/blog/post") =
      some (str "//cdn.other.com/x.js") := by
  refine ⟨?_, ?_, ?_⟩
  · have h := claim_C2_amended.1 (str "https://example.com/blog/post")
      ⟨str "https", str "example.com", str "/blog/post", [], [], []⟩
      [str "assets", str "main.css"] (by decide) (by decide) (by decide)
      (by intro t ht
          simp at ht
          rcases ht with rfl | rfl <;>
            exact ⟨by decide, by decide, by decide, by decide⟩)
    have e1 : joinOn '/' [str "assets", str "main.css"] = str "assets/main.css" := by
      decide
    rw [e1] at h
    have e2 : str "https" ++ str "://" ++ str "example.com" ++
        '/' :: str "assets/main.css" = str "https://example.com/assets/main.css" := by
      decide
    rw [e2] at h
    exact h
  · have h := claim_C2_amended.2.1 (str "https://example.com/blog/post")
      ⟨str "https", str "example.com", str "/blog/post", [], [], []⟩
      [str "images", str "a.png"] (by decide) (by decide) (by decide)
      (by intro t ht
          simp at ht
          rcases ht with rfl | rfl <;>
            exact ⟨by decide, by decide, by decide, by decide⟩)
    have e1 : joinOn '/' [str "images", str "a.png"] = str "images/a.png" := by
      decide
    rw [e1] at h
    have e2 : ('/' :: str "images/a.png" : Str) = str "/images/a.png" := by decide
    have e3 : str "https" ++ str "://" ++ str "example.com" ++
        '/' :: str "images/a.png" = str "https://example.com/images/a.png" := by
      decide
    rw [e3] at h
    rw [show (str "/images/a.png" : Str) = '/' :: str "images/a.png" from by decide]
    exact h
  · exact claim_C2_amended.2.2 (str "https://example.com/blog/post")
      (str "//cdn.other.com/x.js")
      ⟨str "https", str "example.com", str "/blog/post", [], [], []⟩
      ⟨[], str "cdn.other.com", str "/x.js", [], [], []⟩
      (by decide) (by decide) (by decide)
